import Mathlib

/-!
# Verification of the PolarDB-for-PostgreSQL syslogger
  (src/src/backend/postmaster/syslogger.c)

A shallow embedding of the logging collector: the pipe chunk protocol parser
`process_pipe_input`, the per-pid reassembly buffers, the shutdown flush, the
rotation engine (`logfile_rotate_dest`, `set_next_rotation_time`), the
retention sweeper `polar_remove_old_syslog_files` and the meta-info writer
`update_metainfo_datafile`, together with proofs about them.

Bytes are modelled as natural numbers (values 0..255), byte buffers as
`List ℕ`, C `pg_time_t` as `ℤ` with C truncated `%` as `Int.tmod`.
-/

namespace Syslogger

/-! ## Protocol constants

`PIPE_PROTO_*` and `LOG_DESTINATION_*` live in headers outside `src/`
(`postmaster/syslogger.h`, `utils/elog.h`).  Modelled from the spec: the
header is 9 bytes (two nul sentinel bytes, 16-bit little-endian length,
32-bit pid, one flags byte); the flags byte has one bit per destination
(TEXT, CSV, JSON, AUDIT, SLOW) plus an `IS_LAST` bit.  The stderr/csv/json
and `IS_LAST` bit values match the PostgreSQL 15 headers; the two POLAR
destination bits are given fresh one-hot values, which is all the code under
verification relies on (it only masks and popcounts them). -/

def PIPE_HEADER_SIZE : ℕ := 9

def PIPE_PROTO_IS_LAST : ℕ := 0x01
def PIPE_PROTO_DEST_STDERR : ℕ := 0x10
def PIPE_PROTO_DEST_CSVLOG : ℕ := 0x20
def PIPE_PROTO_DEST_JSONLOG : ℕ := 0x40
def POLAR_PIPE_PROTO_DEST_AUDITLOG : ℕ := 0x02
def POLAR_PIPE_PROTO_DEST_SLOWLOG : ℕ := 0x04

/-- The destination mask built at syslogger.c:1179-1184. -/
def PIPE_PROTO_DEST_MASK : ℕ :=
  PIPE_PROTO_DEST_STDERR ||| PIPE_PROTO_DEST_CSVLOG ||| PIPE_PROTO_DEST_JSONLOG |||
  POLAR_PIPE_PROTO_DEST_AUDITLOG ||| POLAR_PIPE_PROTO_DEST_SLOWLOG

/-- `LOG_DESTINATION_*` codes, modelled from the spec (elog.h is outside
src/): the stderr/csvlog/jsonlog values are the PostgreSQL ones, the POLAR
ones fresh distinct bits. -/
def LOG_DESTINATION_STDERR : ℕ := 1
def LOG_DESTINATION_CSVLOG : ℕ := 8
def LOG_DESTINATION_JSONLOG : ℕ := 16
def LOG_DESTINATION_POLAR_AUDITLOG : ℕ := 32
def LOG_DESTINATION_POLAR_SLOWLOG : ℕ := 64

def NBUFFER_LISTS : ℕ := 256

/-! ## Header decoding (syslogger.c:1173-1187) -/

/-- `PipeProtoHeader` of syslogger.h: two nul bytes, a `uint16` length, an
`int32` pid, a `bits8` flags byte. -/
structure PipeProtoHeader where
  nul0 : ℕ
  nul1 : ℕ
  len : ℕ
  pid : ℤ
  flags : ℕ
deriving DecidableEq

def byteAt (l : List ℕ) (i : ℕ) : ℕ := l.getD i 0

/-- Two's-complement reading of a 32-bit little-endian value as C `int32`. -/
def decodeInt32 (raw : ℕ) : ℤ :=
  if raw < 2 ^ 31 then (raw : ℤ) else (raw : ℤ) - 2 ^ 32

/-- The `memcpy(&p, cursor, offsetof(PipeProtoHeader, data))` of
syslogger.c:1178, for a little-endian host. -/
def readHeader (l : List ℕ) : PipeProtoHeader :=
  { nul0 := byteAt l 0
    nul1 := byteAt l 1
    len := byteAt l 2 + 256 * byteAt l 3
    pid := decodeInt32 (byteAt l 4 + 256 * byteAt l 5 + 65536 * byteAt l 6 +
            16777216 * byteAt l 7)
    flags := byteAt l 8 }

/-- Population count of the low 8 bits: `pg_popcount((char *) &dest_flags, 1)`
at syslogger.c:1187. -/
def popcount8 (n : ℕ) : ℕ :=
  n % 2 + n / 2 % 2 + n / 4 % 2 + n / 8 % 2 +
  n / 16 % 2 + n / 32 % 2 + n / 64 % 2 + n / 128 % 2

/-- The header validity test of syslogger.c:1185-1187: nul sentinels, a
positive length, a nonzero pid, and exactly one destination bit. -/
def headerValid (p : PipeProtoHeader) : Bool :=
  p.nul0 == 0 && p.nul1 == 0 && decide (0 < p.len) && p.pid != 0 &&
  popcount8 (p.flags &&& PIPE_PROTO_DEST_MASK) == 1

/-- Destination selection of syslogger.c:1201-1215.  The final catch-all
returns the stderr destination; in the C source that branch is
`Assert(false)` and is unreachable because `headerValid` guarantees exactly
one destination bit. -/
def chunkDest (flags : ℕ) : ℕ :=
  if flags &&& PIPE_PROTO_DEST_STDERR ≠ 0 then LOG_DESTINATION_STDERR
  else if flags &&& PIPE_PROTO_DEST_CSVLOG ≠ 0 then LOG_DESTINATION_CSVLOG
  else if flags &&& PIPE_PROTO_DEST_JSONLOG ≠ 0 then LOG_DESTINATION_JSONLOG
  else if flags &&& POLAR_PIPE_PROTO_DEST_AUDITLOG ≠ 0 then LOG_DESTINATION_POLAR_AUDITLOG
  else if flags &&& POLAR_PIPE_PROTO_DEST_SLOWLOG ≠ 0 then LOG_DESTINATION_POLAR_SLOWLOG
  else LOG_DESTINATION_STDERR

/-! ## Reassembly buffers (syslogger.c:149-156, 1217-1293) -/

/-- `save_buffer`: pid of the source process plus accumulated data.
`pid = 0` marks a free slot. -/
structure save_buffer where
  pid : ℤ
  data : List ℕ
deriving DecidableEq

/-- The 256 buffer lists, indexed by `pid % NBUFFER_LISTS`. -/
def BufferLists : Type := Fin 256 → List save_buffer

def initBufferLists : BufferLists := fun _ => []

/-- Bucket selection `p.pid % NBUFFER_LISTS` (syslogger.c:1218).  C `%` on the
positive pids produced by `getpid` agrees with `Int.emod`; negative pids
would index out of bounds in C and are outside the modelled domain. -/
def bucketOf (pid : ℤ) : Fin 256 :=
  ⟨(pid % 256).toNat, by
    have h1 : 0 ≤ pid % 256 := Int.emod_nonneg pid (by norm_num)
    have h2 : pid % 256 < 256 := Int.emod_lt_of_pos pid (by norm_num)
    omega⟩

/-- Append a payload to the first slot holding `pid`
(syslogger.c:1237-1244). -/
def appendToExisting (l : List save_buffer) (pid : ℤ) (payload : List ℕ) :
    List save_buffer :=
  match l with
  | [] => []
  | s :: rest =>
    if s.pid = pid then ⟨pid, s.data ++ payload⟩ :: rest
    else s :: appendToExisting rest pid payload

/-- Store a first chunk in the first free slot, extending the list with a new
slot when none is free (syslogger.c:1245-1264). -/
def fillFree (l : List save_buffer) (pid : ℤ) (payload : List ℕ) :
    List save_buffer :=
  match l with
  | [] => [⟨pid, payload⟩]
  | s :: rest =>
    if s.pid = 0 then ⟨pid, payload⟩ :: rest
    else s :: fillFree rest pid payload

/-- Mark the first slot holding `pid` unused and reclaim its storage
(syslogger.c:1279-1281). -/
def freeExisting (l : List save_buffer) (pid : ℤ) : List save_buffer :=
  match l with
  | [] => []
  | s :: rest =>
    if s.pid = pid then ⟨0, []⟩ :: rest
    else s :: freeExisting rest pid

/-- Data of the first slot holding `pid`, `[]` when there is none. -/
def slotData (l : List save_buffer) (pid : ℤ) : List ℕ :=
  ((l.find? (fun s => s.pid == pid)).map save_buffer.data).getD []

/-- A record handed to `write_syslogger_file`.  `origin` is instrumentation
recording which producer pid the record was reassembled for (`none` for
non-protocol data); the C call passes only the bytes and the destination. -/
structure LogRec where
  origin : Option ℤ
  dest : ℕ
  bytes : List ℕ
deriving DecidableEq

/-- Processing of one complete protocol chunk (syslogger.c:1217-1293):
locate the existing slot for the pid in its bucket, then either accumulate a
non-final chunk or emit the reassembled message on a final chunk. -/
def handleChunk (bl : BufferLists) (pid : ℤ) (dest : ℕ) (is_last : Bool)
    (payload : List ℕ) : BufferLists × List LogRec :=
  let b := bucketOf pid
  let list := bl b
  if is_last then
    if list.any (fun s => s.pid == pid) then
      (Function.update bl b (freeExisting list pid),
       [⟨some pid, dest, slotData list pid ++ payload⟩])
    else
      (bl, [⟨some pid, dest, payload⟩])
  else
    if list.any (fun s => s.pid == pid) then
      (Function.update bl b (appendToExisting list pid payload), [])
    else
      (Function.update bl b (fillFree list pid payload), [])

/-- The scan of syslogger.c:1308-1312: `for (chunklen = 1; chunklen < count;
chunklen++) if (cursor[chunklen] == '\0') break;` — the length of the
non-protocol run starting at the cursor, which deliberately skips position 0
so that at least one byte is always consumed. -/
def scanZero (l : List ℕ) : ℕ := 1 + (l.drop 1).findIdx (fun b => b == 0)

/-- The parsing loop of `process_pipe_input` (syslogger.c:1163-1324), with an
explicit fuel argument bounding the number of iterations; each iteration
consumes at least one byte, so fuel `l.length` is always enough.  Returns the
updated buffer lists, the records written out (in order), and the
not-yet-eaten bytes that the C code left-justifies in the buffer. -/
def ppiF : ℕ → List ℕ → BufferLists → BufferLists × List LogRec × List ℕ
  | 0, l, bl => (bl, [], l)
  | fuel + 1, l, bl =>
    if PIPE_HEADER_SIZE + 1 ≤ l.length then
      let p := readHeader l
      if headerValid p then
        let chunklen := PIPE_HEADER_SIZE + p.len
        if l.length < chunklen then
          (bl, [], l)
        else
          let payload := (l.drop PIPE_HEADER_SIZE).take p.len
          let r1 := handleChunk bl p.pid (chunkDest p.flags)
                      (decide (p.flags &&& PIPE_PROTO_IS_LAST ≠ 0)) payload
          let r2 := ppiF fuel (l.drop chunklen) r1.1
          (r2.1, r1.2 ++ r2.2.1, r2.2.2)
      else
        let chunklen := scanZero l
        let r2 := ppiF fuel (l.drop chunklen) bl
        (r2.1, ⟨none, LOG_DESTINATION_STDERR, l.take chunklen⟩ :: r2.2.1, r2.2.2)
    else (bl, [], l)

/-- `process_pipe_input` (syslogger.c:1163-1324). -/
def process_pipe_input (l : List ℕ) (bl : BufferLists) :
    BufferLists × List LogRec × List ℕ :=
  ppiF l.length l bl

/-! ## Producer-side frames

The wire format consumed by the parser, as produced by `write_pipe_chunks`
on the producer side (outside this file's source): a 9-byte header followed
by the payload. -/

inductive DestKind
  | text
  | csv
  | json
  | audit
  | slow
deriving DecidableEq

def destFlagBit : DestKind → ℕ
  | .text => PIPE_PROTO_DEST_STDERR
  | .csv => PIPE_PROTO_DEST_CSVLOG
  | .json => PIPE_PROTO_DEST_JSONLOG
  | .audit => POLAR_PIPE_PROTO_DEST_AUDITLOG
  | .slow => POLAR_PIPE_PROTO_DEST_SLOWLOG

def destCode : DestKind → ℕ
  | .text => LOG_DESTINATION_STDERR
  | .csv => LOG_DESTINATION_CSVLOG
  | .json => LOG_DESTINATION_JSONLOG
  | .audit => LOG_DESTINATION_POLAR_AUDITLOG
  | .slow => LOG_DESTINATION_POLAR_SLOWLOG

/-- One protocol chunk as written by a producer. -/
structure Frame where
  pid : ℤ
  dest : DestKind
  is_last : Bool
  payload : List ℕ
deriving DecidableEq

/-- A frame a real producer can emit: a positive `int32` pid (`getpid`), and
a payload whose length fits the `uint16` length field and is positive. -/
def ValidFrame (f : Frame) : Prop :=
  0 < f.pid ∧ f.pid < 2 ^ 31 ∧ 0 < f.payload.length ∧ f.payload.length < 2 ^ 16

instance (f : Frame) : Decidable (ValidFrame f) := by
  unfold ValidFrame; infer_instance

def frameFlags (f : Frame) : ℕ :=
  destFlagBit f.dest ||| (if f.is_last then PIPE_PROTO_IS_LAST else 0)

/-- Little-endian encoding of the 9-byte `PipeProtoHeader`. -/
def encodeHeader (f : Frame) : List ℕ :=
  [0, 0, f.payload.length % 256, f.payload.length / 256,
   f.pid.toNat % 256, f.pid.toNat / 256 % 256, f.pid.toNat / 65536 % 256,
   f.pid.toNat / 16777216 % 256, frameFlags f]

def encodeFrame (f : Frame) : List ℕ := encodeHeader f ++ f.payload

def encodeFrames (fs : List Frame) : List ℕ := (fs.map encodeFrame).flatten

/-! ## Spec-side reference machinery used to state the theorems -/

/-- Processing a list of already-delimited chunks through the reassembler. -/
def runFrames (bl : BufferLists) : List Frame → BufferLists × List LogRec
  | [] => (bl, [])
  | f :: fs =>
    let r1 := handleChunk bl f.pid (destCode f.dest) f.is_last f.payload
    let r2 := runFrames r1.1 fs
    (r2.1, r1.2 ++ r2.2)

/-- One read of the loop of `SysLoggerMain` (syslogger.c:661-680): the bytes
read are appended after the not-yet-eaten bytes and `process_pipe_input`
runs on the buffer. -/
def feedStep (acc : BufferLists × List LogRec × List ℕ) (r : List ℕ) :
    BufferLists × List LogRec × List ℕ :=
  let res := process_pipe_input (acc.2.2 ++ r) acc.1
  (res.1, acc.2.1 ++ res.2.1, res.2.2)

/-- The read loop of `SysLoggerMain` restricted to its data path, started
from an empty buffer and all reassembly slots free. -/
def feedReads (reads : List (List ℕ)) : BufferLists × List LogRec × List ℕ :=
  reads.foldl feedStep (initBufferLists, [], [])

def framesFor (p : ℤ) (fs : List Frame) : List Frame :=
  fs.filter (fun f => f.pid == p)

/-- The payload byte lists of the records emitted for producer `p`. -/
def recsFor (p : ℤ) (recs : List LogRec) : List (List ℕ) :=
  recs.filterMap (fun r => if r.origin == some p then some r.bytes else none)

/-- Reference reassembly of a single producer's chunk sequence: accumulate
payloads and close a record at each `is_last` chunk. -/
def groupRecords (pend : List ℕ) : List Frame → List (List ℕ)
  | [] => []
  | f :: fs =>
    if f.is_last then (pend ++ f.payload) :: groupRecords [] fs
    else groupRecords (pend ++ f.payload) fs

/-- A chunk sequence whose final chunk (if any) carries `IS_LAST`, so that
every chunk belongs to a terminated record. -/
def endsWithLast (fs : List Frame) : Bool :=
  match fs.getLast? with
  | some f => f.is_last
  | none => true

/-- The pending (not yet emitted) bytes of one producer after a chunk
sequence, starting from pending bytes `pend`. -/
def groupPend (pend : List ℕ) : List Frame → List ℕ
  | [] => pend
  | f :: fs => groupPend (if f.is_last then [] else pend ++ f.payload) fs

def slotDataOf (bl : BufferLists) (p : ℤ) : List ℕ := slotData (bl (bucketOf p)) p

def countPid (l : List save_buffer) (p : ℤ) : ℕ :=
  l.countP (fun s => s.pid == p)

/-- Structural invariant of the buffer lists: every active slot sits in the
bucket of its pid, and no bucket holds two active slots for the same pid. -/
def BLInv (bl : BufferLists) : Prop :=
  ∀ i : Fin 256,
    (∀ s ∈ bl i, s.pid ≠ 0 → bucketOf s.pid = i) ∧
    ∀ p : ℤ, p ≠ 0 → countPid (bl i) p ≤ 1

/-- At most one reassembly slot across all 256 buffer lists holds any given
nonzero pid. -/
def SlotUniq (bl : BufferLists) : Prop :=
  ∀ p : ℤ, p ≠ 0 → (Finset.univ.sum fun i : Fin 256 => countPid (bl i) p) ≤ 1

/-- A buffer on which the parsing loop consumes nothing: either too short to
hold a header, or a valid header whose chunk has not fully arrived. -/
def Stops (l : List ℕ) : Prop :=
  l.length < PIPE_HEADER_SIZE + 1 ∨
  (headerValid (readHeader l) = true ∧
   l.length < PIPE_HEADER_SIZE + (readHeader l).len)

/-! ## Shutdown flush and the main loop (syslogger.c:444-741, 1332-1380) -/

/-- The records written by the slot-dump loop of `flush_pipe_input`
(syslogger.c:1348-1369): every still-active slot goes to the stderr
destination. -/
def flushEmissions (bl : BufferLists) : List LogRec :=
  ((List.finRange 256).map fun i =>
    (bl i).filterMap fun s =>
      if s.pid ≠ 0 then some ⟨some s.pid, LOG_DESTINATION_STDERR, s.data⟩
      else none).flatten

/-- The buffer lists after `flush_pipe_input`: every slot marked unused. -/
def flushState (bl : BufferLists) : BufferLists :=
  fun i => (bl i).map fun s => if s.pid ≠ 0 then ⟨0, []⟩ else s

/-- `flush_pipe_input` (syslogger.c:1332-1380) on the main collector
(`MyLoggerIndex = 0`): dump incomplete per-pid messages, then force out any
remaining pipe data as-is, all to the stderr destination. -/
def flush_pipe_input (buffer : List ℕ) (bl : BufferLists) :
    BufferLists × List LogRec :=
  (flushState bl,
   flushEmissions bl ++
     (if buffer ≠ [] then [⟨none, LOG_DESTINATION_STDERR, buffer⟩] else []))

/-- State of the main loop that the shutdown logic reads and writes. -/
structure LoopState where
  pipe_eof_seen : Bool
  buffer : List ℕ
  sys : BufferLists

/-- Outcome of the wait at syslogger.c:654-659 and of the subsequent
`read`: data arrived (`bytesRead > 0`), EOF (`bytesRead == 0` while
readable), a read error (`bytesRead < 0`), or a timeout. -/
inductive LoopEvent
  | readData (bytes : List ℕ)
  | readEOF
  | readError
  | timeout
deriving DecidableEq

/-- One iteration of the main worker loop of `SysLoggerMain`
(syslogger.c:661-736), restricted to the state it shares with shutdown.
The configuration-reload and rotation stanzas earlier in the loop body
(syslogger.c:458-647) touch neither `pipe_eof_seen` nor the loop exit and
are not modelled here.  The returned `Bool` is true when the iteration
reaches `proc_exit(0)`; the `readData` arm ends in `continue`, skipping the
`pipe_eof_seen` test, exactly as the source does. -/
def sysLoggerIter (st : LoopState) (ev : LoopEvent) :
    LoopState × List LogRec × Bool :=
  match ev with
  | .readData bytes =>
    let res := process_pipe_input (st.buffer ++ bytes) st.sys
    (⟨st.pipe_eof_seen, res.2.2, res.1⟩, res.2.1, false)
  | .readEOF =>
    let res := flush_pipe_input st.buffer st.sys
    (⟨true, [], res.1⟩, res.2, true)
  | .readError => (st, [], st.pipe_eof_seen)
  | .timeout => (st, [], st.pipe_eof_seen)

/-! ## Rotation engine (syslogger.c:1559-1796) -/

inductive OpenMode
  | write
  | append
deriving DecidableEq

/-- Per-destination output state: whether a file is open, and the remembered
last file name (the C invariant is handle present ⇔ name present). -/
structure DestSlot where
  hasFile : Bool
  last_file_name : Option String
deriving DecidableEq

/-- Observable outcome of `logfile_rotate_dest`: the updated slot, the
returned continue flag, the possibly-updated `rotation_disabled`, which
`fopen` was attempted (name and mode), and which file had its page cache
dropped via `polar_drop_log_page_cache`. -/
structure RotateDestResult where
  slot : DestSlot
  cont : Bool
  rotation_disabled : Bool
  opened : Option (String × OpenMode)
  dropped_cache : Option String
deriving DecidableEq

/-- Linux errno values for the transient open failures. -/
def ENFILE : ℕ := 23
def EMFILE : ℕ := 24

/-- `logfile_rotate_dest` (syslogger.c:1559-1660).  File-system effects are
abstracted: `filename` stands for the `logfile_getname fntime suffix` result,
and `open_ok` / `open_errno` for the outcome of `logfile_open`. -/
def logfile_rotate_dest (Log_destination : ℕ) (Log_truncate_on_rotation : Bool)
    (time_based_rotation : Bool) (size_rotation_for : ℕ) (target_dest : ℕ)
    (filename : String) (open_ok : Bool) (open_errno : ℕ)
    (rotation_disabled : Bool) (slot : DestSlot) : RotateDestResult :=
  if Log_destination &&& target_dest = 0 ∧ target_dest ≠ LOG_DESTINATION_STDERR then
    ⟨⟨false, none⟩, true, rotation_disabled, none, none⟩
  else if ¬time_based_rotation ∧ size_rotation_for &&& target_dest = 0 then
    ⟨slot, true, rotation_disabled, none, none⟩
  else
    let doTrunc : Bool :=
      Log_truncate_on_rotation && time_based_rotation &&
        (match slot.last_file_name with
         | some last => filename != last
         | none => false)
    let dropped : Option String := if doTrunc then slot.last_file_name else none
    let mode : OpenMode := if doTrunc then .write else .append
    if open_ok then
      ⟨⟨true, some filename⟩, true, rotation_disabled, some (filename, mode), dropped⟩
    else
      ⟨slot, false,
       if open_errno ≠ ENFILE ∧ open_errno ≠ EMFILE then true else rotation_disabled,
       some (filename, mode), dropped⟩

/-- `set_next_rotation_time` (syslogger.c:1771-1796) for
`Log_RotationAge > 0`: align the current time to the next multiple of the
rotation interval in the local timezone.  C truncated `%` on `pg_time_t` is
`Int.tmod`. -/
def set_next_rotation_time (now gmtoff rotinterval : ℤ) : ℤ :=
  now + gmtoff - Int.tmod (now + gmtoff) rotinterval + rotinterval - gmtoff

/-- The file-name reference time chosen by `logfile_rotate`
(syslogger.c:1672-1680). -/
def rotate_fntime (time_based_rotation : Bool) (next_rotation_time now : ℤ) : ℤ :=
  if time_based_rotation then next_rotation_time else now

/-- The two sticky rotation flags. -/
structure RotFlags where
  rotation_disabled : Bool
  rotation_requested : Bool
deriving DecidableEq

/-- The rotation-disabling recovery in the SIGHUP stanza of `SysLoggerMain`
(syslogger.c:530-534): a config reload clears `rotation_disabled` and forces
a rotation. -/
def reload_rotation_flags (f : RotFlags) : RotFlags :=
  if f.rotation_disabled then ⟨false, true⟩ else f

/-- `sigUsr1Handler` (syslogger.c:1955-1964): an explicit rotation request
only raises `rotation_requested`. -/
def sigUsr1Handler (f : RotFlags) : RotFlags :=
  ⟨f.rotation_disabled, true⟩

/-- Effect of `logfile_rotate` (syslogger.c:1665-1715) on the flags: it
clears `rotation_requested` on entry; `rotation_disabled` becomes true only
when some destination hit a non-transient open failure. -/
def logfile_rotate_flags (f : RotFlags) (open_failed_non_transient : Bool) :
    RotFlags :=
  ⟨f.rotation_disabled || open_failed_non_transient, false⟩

/-! ## Retention sweeper `polar_remove_old_syslog_files`
(syslogger.c:1971-2079).  Directory entries are byte lists (C strings
without the terminating nul). -/

/-- `strcmp(a, b) < 0` on nul-free byte strings. -/
def strcmpLt : List ℕ → List ℕ → Bool
  | [], [] => false
  | [], _ :: _ => true
  | _ :: _, [] => false
  | a :: as, b :: bs =>
    if a < b then true else if b < a then false else strcmpLt as bs

inductive LogFamily
  | text
  | audit
  | slow
deriving DecidableEq

/-- Configuration read by the sweeper.  The audit and slow suffixes
(`AUDITLOG_SUFFIX`, `SLOWLOG_SUFFIX`) are defined in a header outside src/
and are kept abstract. -/
structure SweepCfg where
  log_filename : List ℕ
  audit_suffix : List ℕ
  slow_suffix : List ℕ
  max_log : ℤ
  max_audit : ℤ
  max_slow : ℤ

/-- `strstr(hay, needle) != NULL`. -/
def hasSub (needle : List ℕ) : List ℕ → Bool
  | [] => needle.isEmpty
  | c :: t => (needle == (c :: t).take needle.length) || hasSub needle t

/-- Position of the first `%` in `Log_filename` (syslogger.c:1997-1999);
the whole length when there is none. -/
def patPrefixLen (pat : List ℕ) : ℕ := pat.findIdx (fun c => c == 37)

/-- Classification of one directory entry (syslogger.c:2006-2047): skip `.`
and `..` (byte 46 is `.`), require the `Log_filename` literal leading part,
then split by suffix containment: audit first, slow second, text otherwise. -/
def famOf (cfg : SweepCfg) (name : List ℕ) : Option LogFamily :=
  if name = [46] ∨ name = [46, 46] then none
  else if name.take (patPrefixLen cfg.log_filename) =
      cfg.log_filename.take (patPrefixLen cfg.log_filename) then
    some (if hasSub cfg.audit_suffix name then .audit
          else if hasSub cfg.slow_suffix name then .slow
          else .text)
  else none

/-- The per-family counters and oldest names tracked by the directory scan;
`[]` plays the role of the `oldest_path[0] == '\0'` invalid marker. -/
structure SweepScan where
  num_log : ℕ
  num_audit : ℕ
  num_slow : ℕ
  oldest_log : List ℕ
  oldest_audit : List ℕ
  oldest_slow : List ℕ
deriving DecidableEq

def updOldest (cur name : List ℕ) : List ℕ :=
  if cur = [] ∨ strcmpLt name cur then name else cur

def scanEntry (cfg : SweepCfg) (st : SweepScan) (name : List ℕ) : SweepScan :=
  match famOf cfg name with
  | none => st
  | some .audit =>
    ⟨st.num_log, st.num_audit + 1, st.num_slow,
     st.oldest_log, updOldest st.oldest_audit name, st.oldest_slow⟩
  | some .slow =>
    ⟨st.num_log, st.num_audit, st.num_slow + 1,
     st.oldest_log, st.oldest_audit, updOldest st.oldest_slow name⟩
  | some .text =>
    ⟨st.num_log + 1, st.num_audit, st.num_slow,
     updOldest st.oldest_log name, st.oldest_audit, st.oldest_slow⟩

def sweepScan (cfg : SweepCfg) (files : List (List ℕ)) : SweepScan :=
  files.foldl (scanEntry cfg) ⟨0, 0, 0, [], [], []⟩

/-- `polar_remove_old_syslog_files` (syslogger.c:1971-2079): scan the log
directory once, then unlink at most one file per family — the
lexicographically smallest — when that family's count exceeds its positive
cap.  Returns the names passed to `polar_remove_log_file`, in source
order (audit, slow, text). -/
def polar_remove_old_syslog_files (cfg : SweepCfg) (files : List (List ℕ)) :
    List (List ℕ) :=
  if cfg.max_log < 0 ∧ cfg.max_audit < 0 ∧ cfg.max_slow < 0 then []
  else
    let s := sweepScan cfg files
    if (s.num_audit : ℤ) ≤ cfg.max_audit ∧ (s.num_log : ℤ) ≤ cfg.max_log ∧
        (s.num_slow : ℤ) ≤ cfg.max_slow then []
    else
      (if 0 < cfg.max_audit ∧ cfg.max_audit < (s.num_audit : ℤ) then
        [s.oldest_audit] else []) ++
      (if 0 < cfg.max_slow ∧ cfg.max_slow < (s.num_slow : ℤ) then
        [s.oldest_slow] else []) ++
      (if 0 < cfg.max_log ∧ cfg.max_log < (s.num_log : ℤ) then
        [s.oldest_log] else [])

/-- Number of directory entries classified into a family. -/
def famCount (cfg : SweepCfg) (fam : LogFamily) (files : List (List ℕ)) : ℕ :=
  files.countP (fun n => famOf cfg n == some fam)

/-- Family-indexed view of the scan counters. -/
def scanCount (s : SweepScan) : LogFamily → ℕ
  | .text => s.num_log
  | .audit => s.num_audit
  | .slow => s.num_slow

/-- Family-indexed view of the scan minima. -/
def scanOldest (s : SweepScan) : LogFamily → List ℕ
  | .text => s.oldest_log
  | .audit => s.oldest_audit
  | .slow => s.oldest_slow

/-! ## Meta-info file `update_metainfo_datafile` (syslogger.c:1806-1923) -/

inductive MetaKind
  | stderrKind
  | csvlogKind
  | jsonlogKind
  | auditlogKind
  | slowlogKind
deriving DecidableEq

/-- The five remembered last file names. -/
structure MetaNames where
  last_sys_file_name : Option String
  last_csv_file_name : Option String
  last_json_file_name : Option String
  polar_last_audit_file_name : Option String
  polar_last_slowlog_file_name : Option String
deriving DecidableEq

def metaDestBit : MetaKind → ℕ
  | .stderrKind => LOG_DESTINATION_STDERR
  | .csvlogKind => LOG_DESTINATION_CSVLOG
  | .jsonlogKind => LOG_DESTINATION_JSONLOG
  | .auditlogKind => LOG_DESTINATION_POLAR_AUDITLOG
  | .slowlogKind => LOG_DESTINATION_POLAR_SLOWLOG

def metaName (nm : MetaNames) : MetaKind → Option String
  | .stderrKind => nm.last_sys_file_name
  | .csvlogKind => nm.last_csv_file_name
  | .jsonlogKind => nm.last_json_file_name
  | .auditlogKind => nm.polar_last_audit_file_name
  | .slowlogKind => nm.polar_last_slowlog_file_name

/-- One conditional `fprintf(fh, "<kind> %s\n", name)` block
(syslogger.c:1850-1915): a line is written only when the last file name is
recorded and the destination bit is set. -/
def metaLineFor (Log_destination : ℕ) (nm : MetaNames) (k : MetaKind) :
    List (MetaKind × String) :=
  match metaName nm k with
  | some n => if Log_destination &&& metaDestBit k ≠ 0 then [(k, n)] else []
  | none => []

/-- `update_metainfo_datafile` (syslogger.c:1806-1923) on its success path:
`none` models the unlink of the meta-info file when no destination is
enabled; otherwise the lines written, in source order. -/
def update_metainfo_datafile (Log_destination : ℕ) (nm : MetaNames) :
    Option (List (MetaKind × String)) :=
  if Log_destination &&& LOG_DESTINATION_STDERR = 0 ∧
      Log_destination &&& LOG_DESTINATION_CSVLOG = 0 ∧
      Log_destination &&& LOG_DESTINATION_JSONLOG = 0 ∧
      Log_destination &&& LOG_DESTINATION_POLAR_AUDITLOG = 0 ∧
      Log_destination &&& LOG_DESTINATION_POLAR_SLOWLOG = 0 then none
  else
    some (metaLineFor Log_destination nm .stderrKind ++
      metaLineFor Log_destination nm .csvlogKind ++
      metaLineFor Log_destination nm .jsonlogKind ++
      metaLineFor Log_destination nm .auditlogKind ++
      metaLineFor Log_destination nm .slowlogKind)

/-! # Theorems -/

/-! ## C6: next rotation time -/

/-- C6: after a rotation (with time-based rotation enabled, a monotone
clock, and — for a time-based rotation — the trigger `now ≥
next_rotation_time` that fired it), the new `next_rotation_time` computed by
`set_next_rotation_time` is strictly greater than the `fntime` used to name
the rotation's files, and shifted by the local-timezone offset it is an
exact multiple of the rotation interval. -/
theorem c6_next_rotation_time (time_based : Bool)
    (next_rot now1 now2 gmtoff rotinterval : ℤ)
    (hr : 0 < rotinterval) (hg : 0 ≤ now2 + gmtoff)
    (htrig : time_based = true → next_rot ≤ now1) (hmono : now1 ≤ now2) :
    rotate_fntime time_based next_rot now1 <
      set_next_rotation_time now2 gmtoff rotinterval ∧
    Int.tmod (set_next_rotation_time now2 gmtoff rotinterval + gmtoff)
      rotinterval = 0 := by
  have ha : Int.tmod (now2 + gmtoff) rotinterval = (now2 + gmtoff) % rotinterval :=
    Int.tmod_eq_emod hg (le_of_lt hr)
  constructor
  · have h0 : 0 ≤ (now2 + gmtoff) % rotinterval :=
      Int.emod_nonneg _ (ne_of_gt hr)
    have h1 : (now2 + gmtoff) % rotinterval < rotinterval :=
      Int.emod_lt_of_pos _ hr
    unfold rotate_fntime set_next_rotation_time
    rw [ha]
    cases time_based with
    | true =>
      have h2 := htrig rfl
      simp only [if_pos]
      omega
    | false =>
      simp only [Bool.false_eq_true, if_neg, not_false_iff]
      omega
  · have hdef : (now2 + gmtoff) % rotinterval =
        now2 + gmtoff - rotinterval * ((now2 + gmtoff) / rotinterval) :=
      Int.emod_def _ _
    have hrw : set_next_rotation_time now2 gmtoff rotinterval + gmtoff =
        ((now2 + gmtoff) / rotinterval + 1) * rotinterval := by
      unfold set_next_rotation_time
      rw [ha, hdef]; ring
    rw [hrw]
    exact Int.mul_tmod_left _ _

/-- Witness for C6 at a concrete input. -/
theorem c6_next_rotation_time_witness :
    rotate_fntime true 50 60 < set_next_rotation_time 65 0 60 ∧
    Int.tmod (set_next_rotation_time 65 0 60 + 0) 60 = 0 :=
  c6_next_rotation_time true 50 60 65 0 60 (by decide) (by decide)
    (fun _ => by decide) (by decide)

/-! ## C5: truncate-on-rotation -/

/-- C5 counterexample: with `Log_truncate_on_rotation` set and a constant
computed file name (`Log_filename` with no `%` formatters, so the new name
equals the remembered one), a time-based rotation opens the file in append
mode and issues no page-cache-drop advisory — not truncate mode as the
claim states.  Instantiation: `Log_destination = stderr`, previous file
`pg.log`, new name `pg.log`, successful open. -/
theorem c5_counterexample :
    (logfile_rotate_dest 1 true true 0 LOG_DESTINATION_STDERR "pg.log" true 0
      false ⟨true, some "pg.log"⟩).opened =
        some ("pg.log", OpenMode.append) ∧
    (logfile_rotate_dest 1 true true 0 LOG_DESTINATION_STDERR "pg.log" true 0
      false ⟨true, some "pg.log"⟩).dropped_cache = none := by
  constructor <;> rfl

/-- C5 amended: in the rotation path, `logfile_rotate_dest` opens in
truncate mode exactly when `Log_truncate_on_rotation` is set, the rotation
is time-based, a previous file name is remembered, and the computed name
differs from it; the page-cache-drop advisory is issued for the previous
file exactly in that case.  In particular a constant computed name yields
append mode and no advisory. -/
theorem c5_truncate_requires_name_change (L : Bool) (Ld : ℕ) (tb : Bool)
    (szf tgt : ℕ) (filename : String) (open_ok : Bool) (errno : ℕ)
    (dis : Bool) (slot : DestSlot)
    (hdest : ¬(Ld &&& tgt = 0 ∧ tgt ≠ LOG_DESTINATION_STDERR))
    (hrot : ¬(¬tb = true ∧ szf &&& tgt = 0)) :
    ((logfile_rotate_dest Ld L tb szf tgt filename open_ok errno dis
        slot).opened = some (filename, OpenMode.write) ↔
      (L = true ∧ tb = true ∧
        ∃ last, slot.last_file_name = some last ∧ filename ≠ last)) ∧
    ((logfile_rotate_dest Ld L tb szf tgt filename open_ok errno dis
        slot).dropped_cache =
      (if L = true ∧ tb = true ∧
          ∃ last, slot.last_file_name = some last ∧ filename ≠ last then
        slot.last_file_name else none)) ∧
    (slot.last_file_name = some filename →
      (logfile_rotate_dest Ld L tb szf tgt filename open_ok errno dis
        slot).opened = some (filename, OpenMode.append) ∧
      (logfile_rotate_dest Ld L tb szf tgt filename open_ok errno dis
        slot).dropped_cache = none) := by
  unfold logfile_rotate_dest
  rw [if_neg hdest, if_neg (by tauto)]
  rcases slot with ⟨hs, lfn⟩
  rcases lfn with _ | last
  · cases L <;> cases tb <;> cases open_ok <;> simp
  · by_cases hfl : filename = last
    · subst hfl
      cases L <;> cases tb <;> cases open_ok <;> simp
    · have hlf : ¬last = filename := fun h => hfl (Eq.symm h)
      cases L <;> cases tb <;> cases open_ok <;>
        simp [hfl, hlf, bne_iff_ne.mpr hfl]

/-- Witness for C5 amended at a concrete input: a changed name under
truncate-on-rotation does truncate and drops the old file's cache. -/
theorem c5_truncate_requires_name_change_witness :
    ((logfile_rotate_dest 1 true true 0 LOG_DESTINATION_STDERR "b.log" true 0
        false ⟨true, some "a.log"⟩).opened =
      some ("b.log", OpenMode.write) ↔
      (true = true ∧ true = true ∧
        ∃ last, (DestSlot.mk true (some "a.log")).last_file_name = some last ∧
          "b.log" ≠ last)) ∧
    ((logfile_rotate_dest 1 true true 0 LOG_DESTINATION_STDERR "b.log" true 0
        false ⟨true, some "a.log"⟩).dropped_cache =
      (if true = true ∧ true = true ∧
          ∃ last, (DestSlot.mk true (some "a.log")).last_file_name = some last ∧
            "b.log" ≠ last then
        (DestSlot.mk true (some "a.log")).last_file_name else none)) ∧
    ((DestSlot.mk true (some "a.log")).last_file_name = some "b.log" →
      (logfile_rotate_dest 1 true true 0 LOG_DESTINATION_STDERR "b.log" true 0
        false ⟨true, some "a.log"⟩).opened =
        some ("b.log", OpenMode.append) ∧
      (logfile_rotate_dest 1 true true 0 LOG_DESTINATION_STDERR "b.log" true 0
        false ⟨true, some "a.log"⟩).dropped_cache = none) :=
  c5_truncate_requires_name_change true 1 true 0 LOG_DESTINATION_STDERR
    "b.log" true 0 false ⟨true, some "a.log"⟩ (by decide) (by decide)

/-! ## C7: open-failure handling -/

/-- C7 counterexample: with `rotation_disabled = true`, an explicit rotation
request (SIGUSR1) followed by the loop's rotation service leaves
`rotation_disabled` set — it is cleared only by a config reload, not by an
explicit rotation request as the claim states. -/
theorem c7_counterexample :
    (logfile_rotate_flags (sigUsr1Handler ⟨true, false⟩)
      false).rotation_disabled = true := rfl

/-- C7 amended: on an open failure with errno `ENFILE`/`EMFILE` the old file
is kept, rotation stops for this tick and `rotation_disabled` is unchanged;
on any other open failure `rotation_disabled` becomes true; the flag is
cleared (with a rotation forced) by the next config reload; an explicit
rotation request raises `rotation_requested` but does not clear
`rotation_disabled`. -/
theorem c7_open_failure_handling (Ld : ℕ) (L tb : Bool) (szf tgt : ℕ)
    (fn : String) (errno : ℕ) (dis : Bool) (slot : DestSlot) (f : RotFlags)
    (hdest : ¬(Ld &&& tgt = 0 ∧ tgt ≠ LOG_DESTINATION_STDERR))
    (hrot : ¬(¬tb = true ∧ szf &&& tgt = 0)) :
    ((errno = ENFILE ∨ errno = EMFILE) →
      (logfile_rotate_dest Ld L tb szf tgt fn false errno dis
        slot).rotation_disabled = dis ∧
      (logfile_rotate_dest Ld L tb szf tgt fn false errno dis
        slot).cont = false ∧
      (logfile_rotate_dest Ld L tb szf tgt fn false errno dis
        slot).slot = slot) ∧
    ((errno ≠ ENFILE ∧ errno ≠ EMFILE) →
      (logfile_rotate_dest Ld L tb szf tgt fn false errno dis
        slot).rotation_disabled = true ∧
      (logfile_rotate_dest Ld L tb szf tgt fn false errno dis
        slot).cont = false ∧
      (logfile_rotate_dest Ld L tb szf tgt fn false errno dis
        slot).slot = slot) ∧
    reload_rotation_flags ⟨true, f.rotation_requested⟩ = ⟨false, true⟩ ∧
    (sigUsr1Handler f).rotation_disabled = f.rotation_disabled := by
  refine ⟨?_, ?_, rfl, rfl⟩
  all_goals
    intro herr
    unfold logfile_rotate_dest
    rw [if_neg hdest, if_neg (by tauto)]
    simp only []
  · have : ¬(errno ≠ ENFILE ∧ errno ≠ EMFILE) := by tauto
    simp [this]
  · simp [herr]

/-- Witness for C7 at a concrete input (errno `EACCES = 13`, a
non-transient failure). -/
theorem c7_open_failure_handling_witness :
    ((13 = ENFILE ∨ 13 = EMFILE) →
      (logfile_rotate_dest 1 false true 0 LOG_DESTINATION_STDERR "f" false 13
        false ⟨true, some "f"⟩).rotation_disabled = false ∧
      (logfile_rotate_dest 1 false true 0 LOG_DESTINATION_STDERR "f" false 13
        false ⟨true, some "f"⟩).cont = false ∧
      (logfile_rotate_dest 1 false true 0 LOG_DESTINATION_STDERR "f" false 13
        false ⟨true, some "f"⟩).slot = ⟨true, some "f"⟩) ∧
    ((13 ≠ ENFILE ∧ 13 ≠ EMFILE) →
      (logfile_rotate_dest 1 false true 0 LOG_DESTINATION_STDERR "f" false 13
        false ⟨true, some "f"⟩).rotation_disabled = true ∧
      (logfile_rotate_dest 1 false true 0 LOG_DESTINATION_STDERR "f" false 13
        false ⟨true, some "f"⟩).cont = false ∧
      (logfile_rotate_dest 1 false true 0 LOG_DESTINATION_STDERR "f" false 13
        false ⟨true, some "f"⟩).slot = ⟨true, some "f"⟩) ∧
    reload_rotation_flags ⟨true, (RotFlags.mk false false).rotation_requested⟩ =
      ⟨false, true⟩ ∧
    (sigUsr1Handler ⟨false, false⟩).rotation_disabled =
      (RotFlags.mk false false).rotation_disabled :=
  c7_open_failure_handling 1 false true 0 LOG_DESTINATION_STDERR "f" 13 false
    ⟨true, some "f"⟩ ⟨false, false⟩ (by decide) (by decide)

/-! ## C10: meta-info file contents -/

theorem mem_metaLineFor (Ld : ℕ) (nm : MetaNames) (k k' : MetaKind)
    (n : String) :
    (k, n) ∈ metaLineFor Ld nm k' ↔
      (k = k' ∧ Ld &&& metaDestBit k' ≠ 0 ∧ metaName nm k' = some n) := by
  unfold metaLineFor
  cases h : metaName nm k' with
  | none => simp [h]
  | some m =>
    by_cases hb : Ld &&& metaDestBit k' ≠ 0
    · simp only [if_pos hb, List.mem_singleton, Prod.mk.injEq, h,
        Option.some.injEq]
      constructor
      · rintro ⟨rfl, rfl⟩; exact ⟨rfl, hb, rfl⟩
      · rintro ⟨rfl, _, rfl⟩; exact ⟨rfl, rfl⟩
    · simp [if_neg hb, hb]

/-- C10: `update_metainfo_datafile` writes a `<kind> <filename>` line for a
destination exactly when that destination's bit is set in `Log_destination`
and its last file name is recorded; an enabled destination with no recorded
last file name is silently omitted.  The meta-info file is unlinked exactly
when no destination bit is set. -/
theorem c10_metainfo_lines (Ld : ℕ) (nm : MetaNames)
    (lines : List (MetaKind × String))
    (h : update_metainfo_datafile Ld nm = some lines) (k : MetaKind)
    (n : String) :
    ((k, n) ∈ lines ↔ (Ld &&& metaDestBit k ≠ 0 ∧ metaName nm k = some n)) ∧
    (update_metainfo_datafile Ld nm = none ↔
      (Ld &&& LOG_DESTINATION_STDERR = 0 ∧
       Ld &&& LOG_DESTINATION_CSVLOG = 0 ∧
       Ld &&& LOG_DESTINATION_JSONLOG = 0 ∧
       Ld &&& LOG_DESTINATION_POLAR_AUDITLOG = 0 ∧
       Ld &&& LOG_DESTINATION_POLAR_SLOWLOG = 0)) := by
  constructor
  · unfold update_metainfo_datafile at h
    split at h
    · exact absurd h (by simp)
    · have hl : lines =
          metaLineFor Ld nm .stderrKind ++ metaLineFor Ld nm .csvlogKind ++
          metaLineFor Ld nm .jsonlogKind ++ metaLineFor Ld nm .auditlogKind ++
          metaLineFor Ld nm .slowlogKind := by
        have := h.symm
        simpa using this
      subst hl
      simp only [List.mem_append, mem_metaLineFor]
      cases k <;> simp
  · unfold update_metainfo_datafile
    split
    · simpa
    · constructor
      · intro hc; exact absurd hc (by simp)
      · intro hc
        exact absurd hc (by assumption)

/-- Witness for C10 at a concrete input: stderr enabled with a recorded
name, csvlog enabled without one. -/
theorem c10_metainfo_lines_witness :
    (((MetaKind.stderrKind, "x.log") ∈
        [((MetaKind.stderrKind : MetaKind), ("x.log" : String))] ↔
      (9 &&& metaDestBit .stderrKind ≠ 0 ∧
        metaName ⟨some "x.log", none, none, none, none⟩ .stderrKind =
          some "x.log")) ∧
    (update_metainfo_datafile 9 ⟨some "x.log", none, none, none, none⟩ =
        none ↔
      (9 &&& LOG_DESTINATION_STDERR = 0 ∧
       9 &&& LOG_DESTINATION_CSVLOG = 0 ∧
       9 &&& LOG_DESTINATION_JSONLOG = 0 ∧
       9 &&& LOG_DESTINATION_POLAR_AUDITLOG = 0 ∧
       9 &&& LOG_DESTINATION_POLAR_SLOWLOG = 0))) :=
  c10_metainfo_lines 9 ⟨some "x.log", none, none, none, none⟩
    [(MetaKind.stderrKind, "x.log")] (by decide) .stderrKind "x.log"

/-! ## C4: retention sweeper -/

theorem strcmpLt_irrefl (a : List ℕ) : strcmpLt a a = false := by
  induction a with
  | nil => rfl
  | cons x xs ih => simp [strcmpLt, ih]

theorem strcmpLt_trans {a b c : List ℕ} (hab : strcmpLt a b = true)
    (hbc : strcmpLt b c = true) : strcmpLt a c = true := by
  induction a generalizing b c with
  | nil =>
    cases b with
    | nil => simp [strcmpLt] at hab
    | cons y ys =>
      cases c with
      | nil => simp [strcmpLt] at hbc
      | cons z zs => rfl
  | cons x xs ih =>
    cases b with
    | nil => simp [strcmpLt] at hab
    | cons y ys =>
      cases c with
      | nil => simp [strcmpLt] at hbc
      | cons z zs =>
        simp only [strcmpLt] at hab hbc ⊢
        by_cases h1 : x < y <;> by_cases h2 : y < z <;>
          by_cases h3 : y < x <;> by_cases h4 : z < y <;>
          simp_all <;>
          first
          | omega
          | (have hxz : x < z := by omega; simp [hxz])
          | (have hxz : x = z := by omega
             have hxy : x = y := by omega
             subst hxz; subst hxy
             simp_all
             exact ih hab hbc)

theorem sweepScan_concat (cfg : SweepCfg) (files : List (List ℕ))
    (n : List ℕ) :
    sweepScan cfg (files ++ [n]) = scanEntry cfg (sweepScan cfg files) n := by
  unfold sweepScan
  rw [List.foldl_append]
  rfl

theorem scanEntry_count (cfg : SweepCfg) (st : SweepScan) (n : List ℕ)
    (fam : LogFamily) :
    scanCount (scanEntry cfg st n) fam =
      scanCount st fam + (if famOf cfg n = some fam then 1 else 0) := by
  unfold scanEntry
  cases h : famOf cfg n with
  | none => simp [h]
  | some fam' => cases fam' <;> cases fam <;> simp_all [scanCount]

theorem scanEntry_oldest_other (cfg : SweepCfg) (st : SweepScan) (n : List ℕ)
    (fam : LogFamily) (h : famOf cfg n ≠ some fam) :
    scanOldest (scanEntry cfg st n) fam = scanOldest st fam := by
  unfold scanEntry
  cases h' : famOf cfg n with
  | none => simp
  | some fam' => cases fam' <;> cases fam <;> simp_all [scanOldest]

theorem scanEntry_oldest_same (cfg : SweepCfg) (st : SweepScan) (n : List ℕ)
    (fam : LogFamily) (h : famOf cfg n = some fam) :
    scanOldest (scanEntry cfg st n) fam = updOldest (scanOldest st fam) n := by
  unfold scanEntry
  cases fam <;> simp_all [scanOldest]

/-- The directory scan computes, per family, the member count and a
lexicographically minimal member. -/
theorem sweepScan_spec (cfg : SweepCfg) (files : List (List ℕ))
    (hne : ∀ n ∈ files, n ≠ []) (fam : LogFamily) :
    scanCount (sweepScan cfg files) fam = famCount cfg fam files ∧
    (famCount cfg fam files = 0 → scanOldest (sweepScan cfg files) fam = []) ∧
    (0 < famCount cfg fam files →
      scanOldest (sweepScan cfg files) fam ∈ files ∧
      famOf cfg (scanOldest (sweepScan cfg files) fam) = some fam ∧
      ∀ m ∈ files, famOf cfg m = some fam →
        strcmpLt m (scanOldest (sweepScan cfg files) fam) = false) := by
  induction files using List.reverseRecOn with
  | nil =>
    refine ⟨?_, fun _ => ?_, fun h => ?_⟩
    · cases fam <;> rfl
    · cases fam <;> rfl
    · simp [famCount] at h
  | append_singleton fs n ih =>
    have hne' : ∀ m ∈ fs, m ≠ [] := fun m hm => hne m (by simp [hm])
    have hnn : n ≠ [] := hne n (by simp)
    obtain ⟨ihc, ihz, ihp⟩ := ih hne'
    have hcnt : famCount cfg fam (fs ++ [n]) =
        famCount cfg fam fs + (if famOf cfg n = some fam then 1 else 0) := by
      unfold famCount
      rw [List.countP_append]
      by_cases hfn : famOf cfg n = some fam
      · simp [List.countP_cons, hfn]
      · simp [List.countP_cons, hfn]
    rw [sweepScan_concat]
    by_cases hf : famOf cfg n = some fam
    · rw [scanEntry_oldest_same cfg _ n fam hf, scanEntry_count, ihc, hcnt,
        if_pos hf]
      refine ⟨rfl, fun h0 => by omega, fun _ => ?_⟩
      rcases Nat.eq_zero_or_pos (famCount cfg fam fs) with hz | hp
      · have hold : scanOldest (sweepScan cfg fs) fam = [] := ihz hz
        rw [hold]
        have : updOldest [] n = n := by simp [updOldest]
        rw [this]
        refine ⟨by simp, hf, ?_⟩
        intro m hm hmf
        rcases List.mem_append.mp hm with hm' | hm'
        · exfalso
          have : 0 < famCount cfg fam fs := by
            unfold famCount
            rw [List.countP_pos]
            exact ⟨m, hm', by simp [hmf]⟩
          omega
        · have : m = n := by simpa using hm'
          subst this
          exact strcmpLt_irrefl m
      · obtain ⟨hmem, hfam, hmin⟩ := ihp hp
        have holdne : scanOldest (sweepScan cfg fs) fam ≠ [] :=
          hne' _ hmem
        by_cases hlt : strcmpLt n (scanOldest (sweepScan cfg fs) fam) = true
        · have hupd : updOldest (scanOldest (sweepScan cfg fs) fam) n = n := by
            unfold updOldest
            rw [if_pos (Or.inr hlt)]
          rw [hupd]
          refine ⟨by simp, hf, ?_⟩
          intro m hm hmf
          rcases List.mem_append.mp hm with hm' | hm'
          · by_contra hc
            have hc' : strcmpLt m n = true := by
              cases h' : strcmpLt m n
              · exact absurd h' hc
              · rfl
            have := strcmpLt_trans hc' hlt
            rw [hmin m hm' hmf] at this
            exact absurd this (by simp)
          · have : m = n := by simpa using hm'
            subst this
            exact strcmpLt_irrefl m
        · have hupd : updOldest (scanOldest (sweepScan cfg fs) fam) n =
              scanOldest (sweepScan cfg fs) fam := by
            unfold updOldest
            rw [if_neg]
            rintro (h | h)
            · exact holdne h
            · exact hlt h
          rw [hupd]
          refine ⟨by simp [hmem], hfam, ?_⟩
          intro m hm hmf
          rcases List.mem_append.mp hm with hm' | hm'
          · exact hmin m hm' hmf
          · have : m = n := by simpa using hm'
            subst this
            cases h' : strcmpLt m (scanOldest (sweepScan cfg fs) fam)
            · rfl
            · exact absurd h' hlt
    · rw [scanEntry_oldest_other cfg _ n fam hf, scanEntry_count, ihc, hcnt,
        if_neg hf]
      refine ⟨rfl, fun h0 => ihz (by omega), fun hp => ?_⟩
      obtain ⟨hmem, hfam, hmin⟩ := ihp (by omega)
      refine ⟨by simp [hmem], hfam, ?_⟩
      intro m hm hmf
      rcases List.mem_append.mp hm with hm' | hm'
      · exact hmin m hm' hmf
      · have : m = n := by simpa using hm'
        subst this
        exact absurd hmf hf

/-- C4 counterexample: `polar_max_log_files = 3`, the directory holds five
text-family files `la < lb < lc < ld < le` (pattern `l%`, so the literal
leading part is `l`), and neither special suffix occurs.  One retention
sweep removes only the smallest file `la` — not `la` and `lb` as the claim
states — so four files remain, exceeding the configured maximum of 3. -/
theorem c4_counterexample :
    polar_remove_old_syslog_files
      ⟨[108, 37], [46, 97, 117], [46, 115, 108], 3, -1, -1⟩
      [[108, 97], [108, 98], [108, 99], [108, 100], [108, 101]] =
      [[108, 97]] ∧
    [108, 98] ∉
      polar_remove_old_syslog_files
        ⟨[108, 37], [46, 97, 117], [46, 115, 108], 3, -1, -1⟩
        [[108, 97], [108, 98], [108, 99], [108, 100], [108, 101]] := by
  constructor
  · decide
  · decide

/-- C4 amended: one retention sweep removes at most one file per family —
every removed name is a directory entry that is lexicographically minimal in
its family, and no two removed names belong to the same family.  (The count
of a family can therefore exceed its configured maximum after a single
sweep, as `c4_counterexample` shows.) -/
theorem c4_sweep_minimal_per_family (cfg : SweepCfg)
    (files : List (List ℕ)) (hne : ∀ n ∈ files, n ≠ []) :
    (∀ n ∈ polar_remove_old_syslog_files cfg files,
      n ∈ files ∧ ∃ fam, famOf cfg n = some fam ∧
        ∀ m ∈ files, famOf cfg m = some fam → strcmpLt m n = false) ∧
    (∀ n1 ∈ polar_remove_old_syslog_files cfg files,
      ∀ n2 ∈ polar_remove_old_syslog_files cfg files,
        famOf cfg n1 = famOf cfg n2 → n1 = n2) := by
  have hdis : ∀ n ∈ polar_remove_old_syslog_files cfg files,
      (n = scanOldest (sweepScan cfg files) .audit ∧
        0 < famCount cfg .audit files) ∨
      (n = scanOldest (sweepScan cfg files) .slow ∧
        0 < famCount cfg .slow files) ∨
      (n = scanOldest (sweepScan cfg files) .text ∧
        0 < famCount cfg .text files) := by
    intro n hn
    simp only [polar_remove_old_syslog_files] at hn
    split at hn
    · simp at hn
    · split at hn
      · simp at hn
      · rcases List.mem_append.mp hn with hn' | hn'
        · rcases List.mem_append.mp hn' with hn'' | hn''
          · left
            split at hn''
            · rename_i hcond
              have hnum : (sweepScan cfg files).num_audit =
                  famCount cfg LogFamily.audit files :=
                (sweepScan_spec cfg files hne .audit).1
              refine ⟨by simpa using hn'', ?_⟩
              have h1 := hcond.1
              have h2 := hcond.2
              omega
            · simp at hn''
          · right; left
            split at hn''
            · rename_i hcond
              have hnum : (sweepScan cfg files).num_slow =
                  famCount cfg LogFamily.slow files :=
                (sweepScan_spec cfg files hne .slow).1
              refine ⟨by simpa using hn'', ?_⟩
              have h1 := hcond.1
              have h2 := hcond.2
              omega
            · simp at hn''
        · right; right
          split at hn'
          · rename_i hcond
            have hnum : (sweepScan cfg files).num_log =
                famCount cfg LogFamily.text files :=
              (sweepScan_spec cfg files hne .text).1
            refine ⟨by simpa using hn', ?_⟩
            have h1 := hcond.1
            have h2 := hcond.2
            omega
          · simp at hn'
  constructor
  · intro n hn
    rcases hdis n hn with ⟨rfl, hp⟩ | ⟨rfl, hp⟩ | ⟨rfl, hp⟩
    · obtain ⟨hmem, hfam, hmin⟩ := (sweepScan_spec cfg files hne .audit).2.2 hp
      exact ⟨hmem, .audit, hfam, hmin⟩
    · obtain ⟨hmem, hfam, hmin⟩ := (sweepScan_spec cfg files hne .slow).2.2 hp
      exact ⟨hmem, .slow, hfam, hmin⟩
    · obtain ⟨hmem, hfam, hmin⟩ := (sweepScan_spec cfg files hne .text).2.2 hp
      exact ⟨hmem, .text, hfam, hmin⟩
  · intro n1 h1 n2 h2 hft
    have f1 := hdis n1 h1
    have f2 := hdis n2 h2
    rcases f1 with ⟨rfl, hp1⟩ | ⟨rfl, hp1⟩ | ⟨rfl, hp1⟩ <;>
      rcases f2 with ⟨rfl, hp2⟩ | ⟨rfl, hp2⟩ | ⟨rfl, hp2⟩ <;>
      first
      | rfl
      | (exfalso
         rw [(sweepScan_spec cfg files hne _).2.2 hp1 |>.2.1,
           (sweepScan_spec cfg files hne _).2.2 hp2 |>.2.1] at hft
         simp at hft)

/-- Witness for C4 amended, at the counterexample scenario. -/
theorem c4_sweep_minimal_per_family_witness :
    (∀ n ∈ polar_remove_old_syslog_files
        ⟨[108, 37], [46, 97, 117], [46, 115, 108], 3, -1, -1⟩
        [[108, 97], [108, 98], [108, 99], [108, 100], [108, 101]],
      n ∈ [[108, 97], [108, 98], [108, 99], [108, 100], [108, 101]] ∧
      ∃ fam, famOf ⟨[108, 37], [46, 97, 117], [46, 115, 108], 3, -1, -1⟩ n =
          some fam ∧
        ∀ m ∈ [[108, 97], [108, 98], [108, 99], [108, 100], [108, 101]],
          famOf ⟨[108, 37], [46, 97, 117], [46, 115, 108], 3, -1, -1⟩ m =
            some fam → strcmpLt m n = false) ∧
    (∀ n1 ∈ polar_remove_old_syslog_files
        ⟨[108, 37], [46, 97, 117], [46, 115, 108], 3, -1, -1⟩
        [[108, 97], [108, 98], [108, 99], [108, 100], [108, 101]],
      ∀ n2 ∈ polar_remove_old_syslog_files
          ⟨[108, 37], [46, 97, 117], [46, 115, 108], 3, -1, -1⟩
          [[108, 97], [108, 98], [108, 99], [108, 100], [108, 101]],
        famOf ⟨[108, 37], [46, 97, 117], [46, 115, 108], 3, -1, -1⟩ n1 =
            famOf ⟨[108, 37], [46, 97, 117], [46, 115, 108], 3, -1, -1⟩ n2 →
          n1 = n2) :=
  c4_sweep_minimal_per_family
    ⟨[108, 37], [46, 97, 117], [46, 115, 108], 3, -1, -1⟩
    [[108, 97], [108, 98], [108, 99], [108, 100], [108, 101]] (by decide)

/-! ## Parser unfolding lemmas -/

theorem scanZero_pos (l : List ℕ) : 1 ≤ scanZero l := by
  unfold scanZero; omega

theorem scanZero_le (l : List ℕ) (h : l ≠ []) : scanZero l ≤ l.length := by
  unfold scanZero
  have h1 : (l.drop 1).findIdx (fun b => b == 0) ≤ (l.drop 1).length :=
    List.findIdx_le_length _
  have h2 : (l.drop 1).length = l.length - 1 := List.length_drop 1 l
  have h3 : 1 ≤ l.length := by
    cases l with
    | nil => exact absurd rfl h
    | cons a t => simp
  omega

theorem ppiF_short (fuel : ℕ) (l : List ℕ) (bl : BufferLists)
    (h : l.length < PIPE_HEADER_SIZE + 1) : ppiF fuel l bl = (bl, [], l) := by
  cases fuel with
  | zero => rfl
  | succ g =>
    simp only [ppiF]
    rw [if_neg (by omega)]

theorem ppiF_incomplete (fuel : ℕ) (l : List ℕ) (bl : BufferLists)
    (h10 : PIPE_HEADER_SIZE + 1 ≤ l.length)
    (hv : headerValid (readHeader l) = true)
    (hlt : l.length < PIPE_HEADER_SIZE + (readHeader l).len) :
    ppiF fuel l bl = (bl, [], l) := by
  cases fuel with
  | zero => rfl
  | succ g =>
    simp only [ppiF]
    rw [if_pos h10, if_pos hv, if_pos hlt]

theorem ppiF_chunk (fuel : ℕ) (l : List ℕ) (bl : BufferLists)
    (h10 : PIPE_HEADER_SIZE + 1 ≤ l.length)
    (hv : headerValid (readHeader l) = true)
    (hge : PIPE_HEADER_SIZE + (readHeader l).len ≤ l.length) :
    ppiF (fuel + 1) l bl =
      ((ppiF fuel (l.drop (PIPE_HEADER_SIZE + (readHeader l).len))
          (handleChunk bl (readHeader l).pid (chunkDest (readHeader l).flags)
            (decide ((readHeader l).flags &&& PIPE_PROTO_IS_LAST ≠ 0))
            ((l.drop PIPE_HEADER_SIZE).take (readHeader l).len)).1).1,
       (handleChunk bl (readHeader l).pid (chunkDest (readHeader l).flags)
          (decide ((readHeader l).flags &&& PIPE_PROTO_IS_LAST ≠ 0))
          ((l.drop PIPE_HEADER_SIZE).take (readHeader l).len)).2 ++
         (ppiF fuel (l.drop (PIPE_HEADER_SIZE + (readHeader l).len))
            (handleChunk bl (readHeader l).pid (chunkDest (readHeader l).flags)
              (decide ((readHeader l).flags &&& PIPE_PROTO_IS_LAST ≠ 0))
              ((l.drop PIPE_HEADER_SIZE).take (readHeader l).len)).1).2.1,
       (ppiF fuel (l.drop (PIPE_HEADER_SIZE + (readHeader l).len))
          (handleChunk bl (readHeader l).pid (chunkDest (readHeader l).flags)
            (decide ((readHeader l).flags &&& PIPE_PROTO_IS_LAST ≠ 0))
            ((l.drop PIPE_HEADER_SIZE).take (readHeader l).len)).1).2.2) := by
  simp only [ppiF]
  rw [if_pos h10, if_pos hv, if_neg (by omega)]

theorem ppiF_invalid (fuel : ℕ) (l : List ℕ) (bl : BufferLists)
    (h10 : PIPE_HEADER_SIZE + 1 ≤ l.length)
    (hv : headerValid (readHeader l) = false) :
    ppiF (fuel + 1) l bl =
      ((ppiF fuel (l.drop (scanZero l)) bl).1,
       ⟨none, LOG_DESTINATION_STDERR, l.take (scanZero l)⟩ ::
         (ppiF fuel (l.drop (scanZero l)) bl).2.1,
       (ppiF fuel (l.drop (scanZero l)) bl).2.2) := by
  simp only [ppiF]
  rw [if_pos h10, if_neg (by simp [hv])]

theorem ppiF_stops (fuel : ℕ) (l : List ℕ) (bl : BufferLists) (h : Stops l) :
    ppiF fuel l bl = (bl, [], l) := by
  rcases h with h | ⟨hv, hlt⟩
  · exact ppiF_short fuel l bl h
  · by_cases h10 : PIPE_HEADER_SIZE + 1 ≤ l.length
    · exact ppiF_incomplete fuel l bl h10 hv hlt
    · exact ppiF_short fuel l bl (by omega)

theorem ppiF_congr (f1 : ℕ) : ∀ (f2 : ℕ) (l : List ℕ) (bl : BufferLists),
    l.length ≤ f1 → l.length ≤ f2 → ppiF f1 l bl = ppiF f2 l bl := by
  induction f1 with
  | zero =>
    intro f2 l bl h1 h2
    have hl : l = [] := List.length_eq_zero.mp (by omega)
    subst hl
    rw [ppiF_short 0 [] bl (by simp [PIPE_HEADER_SIZE]),
      ppiF_short f2 [] bl (by simp [PIPE_HEADER_SIZE])]
  | succ g ih =>
    intro f2 l bl h1 h2
    by_cases h10 : PIPE_HEADER_SIZE + 1 ≤ l.length
    · obtain ⟨g2, rfl⟩ : ∃ g2, f2 = g2 + 1 := by
        refine ⟨f2 - 1, ?_⟩
        have : PIPE_HEADER_SIZE + 1 ≤ f2 := le_trans h10 h2
        unfold PIPE_HEADER_SIZE at this
        omega
      by_cases hv : headerValid (readHeader l) = true
      · by_cases hlt : l.length < PIPE_HEADER_SIZE + (readHeader l).len
        · rw [ppiF_incomplete (g + 1) l bl h10 hv hlt,
            ppiF_incomplete (g2 + 1) l bl h10 hv hlt]
        · have hge : PIPE_HEADER_SIZE + (readHeader l).len ≤ l.length := by
            omega
          rw [ppiF_chunk g l bl h10 hv hge, ppiF_chunk g2 l bl h10 hv hge]
          have hlen : (l.drop (PIPE_HEADER_SIZE + (readHeader l).len)).length ≤ g ∧
              (l.drop (PIPE_HEADER_SIZE + (readHeader l).len)).length ≤ g2 := by
            rw [List.length_drop]
            unfold PIPE_HEADER_SIZE at h10 ⊢
            omega
          rw [ih g2 _ _ hlen.1 hlen.2]
      · have hv' : headerValid (readHeader l) = false := by
          cases h' : headerValid (readHeader l)
          · rfl
          · exact absurd h' hv
        rw [ppiF_invalid g l bl h10 hv', ppiF_invalid g2 l bl h10 hv']
        have h1z := scanZero_pos l
        have h2z := scanZero_le l (by
          intro hnil
          rw [hnil] at h10
          simp [PIPE_HEADER_SIZE] at h10)
        have hlen : (l.drop (scanZero l)).length ≤ g ∧
            (l.drop (scanZero l)).length ≤ g2 := by
          rw [List.length_drop]
          omega
        rw [ih g2 _ _ hlen.1 hlen.2]
    · rw [ppiF_short (g + 1) l bl (by omega), ppiF_short f2 l bl (by omega)]

theorem handleChunk_origin (bl : BufferLists) (pid : ℤ) (dest : ℕ)
    (il : Bool) (payload : List ℕ) (r : LogRec)
    (hr : r ∈ (handleChunk bl pid dest il payload).2) : r.origin = some pid := by
  unfold handleChunk at hr
  rcases il <;> rcases h : (bl (bucketOf pid)).any (fun s => s.pid == pid) <;>
    simp [h] at hr <;> simp [hr]

/-! ## C9: progress and unframed runs -/

theorem ppiF_unframed_nonempty (fuel : ℕ) :
    ∀ (l : List ℕ) (bl : BufferLists) (r : LogRec),
      r ∈ (ppiF fuel l bl).2.1 → r.origin = none → r.bytes ≠ [] := by
  induction fuel with
  | zero => intro l bl r hr; simp [ppiF] at hr
  | succ g ih =>
    intro l bl r hr ho
    by_cases h10 : PIPE_HEADER_SIZE + 1 ≤ l.length
    · by_cases hv : headerValid (readHeader l) = true
      · by_cases hlt : l.length < PIPE_HEADER_SIZE + (readHeader l).len
        · rw [ppiF_incomplete (g + 1) l bl h10 hv hlt] at hr
          simp at hr
        · rw [ppiF_chunk g l bl h10 hv (by omega)] at hr
          rcases List.mem_append.mp hr with hr' | hr'
          · have := handleChunk_origin _ _ _ _ _ r hr'
            rw [ho] at this
            exact absurd this (by simp)
          · exact ih _ _ r hr' ho
      · have hv' : headerValid (readHeader l) = false := by
          cases h' : headerValid (readHeader l)
          · rfl
          · exact absurd h' hv
        rw [ppiF_invalid g l bl h10 hv'] at hr
        rcases List.mem_cons.mp hr with hr' | hr'
        · subst hr'
          have h1 : 1 ≤ scanZero l := scanZero_pos l
          intro hnil
          have hnil' : l.take (scanZero l) = [] := hnil
          have : (l.take (scanZero l)).length = 0 := by rw [hnil']; rfl
          rw [List.length_take] at this
          unfold PIPE_HEADER_SIZE at h10
          omega
        · exact ih _ _ r hr' ho
    · rw [ppiF_short (g + 1) l bl (by omega)] at hr
      simp at hr

theorem ppiF_leftover_le (fuel : ℕ) :
    ∀ (l : List ℕ) (bl : BufferLists),
      (ppiF fuel l bl).2.2.length ≤ l.length := by
  induction fuel with
  | zero => intro l bl; simp [ppiF]
  | succ g ih =>
    intro l bl
    by_cases h10 : PIPE_HEADER_SIZE + 1 ≤ l.length
    · by_cases hv : headerValid (readHeader l) = true
      · by_cases hlt : l.length < PIPE_HEADER_SIZE + (readHeader l).len
        · rw [ppiF_incomplete (g + 1) l bl h10 hv hlt]
        · rw [ppiF_chunk g l bl h10 hv (by omega)]
          refine le_trans (ih _ _) ?_
          rw [List.length_drop]
          omega
      · have hv' : headerValid (readHeader l) = false := by
          cases h' : headerValid (readHeader l)
          · rfl
          · exact absurd h' hv
        rw [ppiF_invalid g l bl h10 hv']
        refine le_trans (ih _ _) ?_
        rw [List.length_drop]
        omega
    · rw [ppiF_short (g + 1) l bl (by omega)]

/-- C9: `process_pipe_input` makes progress on every input buffer: every
non-protocol record it emits is at least one byte long; under an invalid
header the scan for the terminating zero byte starts one byte past the
current position (`1 ≤ scanZero`), so the emitted unframed run includes the
byte at the current position — a zero byte sitting there is written out, not
skipped; and the not-yet-eaten remainder never exceeds the input. -/
theorem c9_parser_progress (l : List ℕ) (bl : BufferLists) :
    (∀ r ∈ (process_pipe_input l bl).2.1, r.origin = none → r.bytes ≠ []) ∧
    (PIPE_HEADER_SIZE + 1 ≤ l.length →
      headerValid (readHeader l) = false →
      1 ≤ scanZero l ∧
      (process_pipe_input l bl).2.1.head? =
        some ⟨none, LOG_DESTINATION_STDERR, l.take (scanZero l)⟩) ∧
    (process_pipe_input l bl).2.2.length ≤ l.length := by
  refine ⟨fun r hr => ppiF_unframed_nonempty l.length l bl r hr, ?_, ?_⟩
  · intro h10 hv
    refine ⟨scanZero_pos l, ?_⟩
    unfold process_pipe_input
    obtain ⟨g, hg⟩ : ∃ g, l.length = g + 1 := by
      refine ⟨l.length - 1, ?_⟩
      unfold PIPE_HEADER_SIZE at h10
      omega
    rw [hg, ppiF_invalid g l bl h10 hv]
    rfl
  · exact ppiF_leftover_le l.length l bl

/-- Witness for C9 at a concrete input: ten bytes starting with a zero byte
under an invalid header (second byte nonzero). -/
theorem c9_parser_progress_witness :
    (∀ r ∈ (process_pipe_input [0, 1, 2, 3, 4, 5, 6, 7, 8, 9]
        initBufferLists).2.1, r.origin = none → r.bytes ≠ []) ∧
    (PIPE_HEADER_SIZE + 1 ≤ ([0, 1, 2, 3, 4, 5, 6, 7, 8, 9] : List ℕ).length →
      headerValid (readHeader [0, 1, 2, 3, 4, 5, 6, 7, 8, 9]) = false →
      1 ≤ scanZero [0, 1, 2, 3, 4, 5, 6, 7, 8, 9] ∧
      (process_pipe_input [0, 1, 2, 3, 4, 5, 6, 7, 8, 9]
          initBufferLists).2.1.head? =
        some ⟨none, LOG_DESTINATION_STDERR,
          ([0, 1, 2, 3, 4, 5, 6, 7, 8, 9] : List ℕ).take
            (scanZero [0, 1, 2, 3, 4, 5, 6, 7, 8, 9])⟩) ∧
    (process_pipe_input [0, 1, 2, 3, 4, 5, 6, 7, 8, 9]
        initBufferLists).2.2.length ≤
      ([0, 1, 2, 3, 4, 5, 6, 7, 8, 9] : List ℕ).length :=
  c9_parser_progress [0, 1, 2, 3, 4, 5, 6, 7, 8, 9] initBufferLists

/-! ## C3: header validation and zero-length payloads -/

/-- C3: the parser accepts a candidate header as a frame header exactly when
the two sentinel bytes are zero, the payload length is positive, the pid is
nonzero and exactly one destination flag bit is set; a header whose length
field is 0 fails the check and the bytes are emitted as an unframed record
routed to the stderr (TEXT) destination. -/
theorem c3_header_validation (l : List ℕ) (bl : BufferLists)
    (h10 : PIPE_HEADER_SIZE + 1 ≤ l.length) :
    (headerValid (readHeader l) = true ↔
      ((readHeader l).nul0 = 0 ∧ (readHeader l).nul1 = 0 ∧
       0 < (readHeader l).len ∧ (readHeader l).pid ≠ 0 ∧
       popcount8 ((readHeader l).flags &&& PIPE_PROTO_DEST_MASK) = 1)) ∧
    ((readHeader l).len = 0 →
      (process_pipe_input l bl).2.1.head? =
        some ⟨none, LOG_DESTINATION_STDERR, l.take (scanZero l)⟩) := by
  constructor
  · unfold headerValid
    simp [Bool.and_eq_true, beq_iff_eq, bne_iff_ne, decide_eq_true_eq,
      and_assoc]
  · intro hlen
    have hv : headerValid (readHeader l) = false := by
      unfold headerValid
      simp [hlen]
    unfold process_pipe_input
    obtain ⟨g, hg⟩ : ∃ g, l.length = g + 1 := by
      refine ⟨l.length - 1, ?_⟩
      unfold PIPE_HEADER_SIZE at h10
      omega
    rw [hg, ppiF_invalid g l bl h10 hv]
    rfl

/-- Witness for C3 at a concrete input: a well-formed header except that its
length field is zero (pid 42, stderr flag with `IS_LAST`). -/
theorem c3_header_validation_witness :
    (headerValid (readHeader [0, 0, 0, 0, 42, 0, 0, 0, 17, 104]) = true ↔
      ((readHeader [0, 0, 0, 0, 42, 0, 0, 0, 17, 104]).nul0 = 0 ∧
       (readHeader [0, 0, 0, 0, 42, 0, 0, 0, 17, 104]).nul1 = 0 ∧
       0 < (readHeader [0, 0, 0, 0, 42, 0, 0, 0, 17, 104]).len ∧
       (readHeader [0, 0, 0, 0, 42, 0, 0, 0, 17, 104]).pid ≠ 0 ∧
       popcount8 ((readHeader [0, 0, 0, 0, 42, 0, 0, 0, 17, 104]).flags &&&
         PIPE_PROTO_DEST_MASK) = 1)) ∧
    ((readHeader [0, 0, 0, 0, 42, 0, 0, 0, 17, 104]).len = 0 →
      (process_pipe_input [0, 0, 0, 0, 42, 0, 0, 0, 17, 104]
          initBufferLists).2.1.head? =
        some ⟨none, LOG_DESTINATION_STDERR,
          ([0, 0, 0, 0, 42, 0, 0, 0, 17, 104] : List ℕ).take
            (scanZero [0, 0, 0, 0, 42, 0, 0, 0, 17, 104])⟩) :=
  c3_header_validation [0, 0, 0, 0, 42, 0, 0, 0, 17, 104] initBufferLists
    (by decide)

/-! ## Frame encoding round-trips -/

theorem encodeHeader_length (f : Frame) :
    (encodeHeader f).length = PIPE_HEADER_SIZE := rfl

theorem encodeFrame_length (f : Frame) :
    (encodeFrame f).length = PIPE_HEADER_SIZE + f.payload.length := by
  simp [encodeFrame, encodeHeader, PIPE_HEADER_SIZE]
  omega

theorem readHeader_encodeFrame (f : Frame) (hf : ValidFrame f)
    (rest : List ℕ) :
    readHeader (encodeFrame f ++ rest) =
      ⟨0, 0, f.payload.length, f.pid, frameFlags f⟩ := by
  obtain ⟨hp0, hp1, hl0, hl1⟩ := hf
  have hb : ∀ i : ℕ, i < 9 →
      byteAt (encodeFrame f ++ rest) i = byteAt (encodeHeader f) i := by
    intro i hi
    unfold byteAt encodeFrame
    rw [List.append_assoc]
    exact List.getD_append _ _ _ _ (by rw [encodeHeader_length]; exact hi)
  unfold readHeader
  rw [hb 0 (by omega), hb 1 (by omega), hb 2 (by omega), hb 3 (by omega),
    hb 4 (by omega), hb 5 (by omega), hb 6 (by omega), hb 7 (by omega),
    hb 8 (by omega)]
  simp only [PipeProtoHeader.mk.injEq]
  refine ⟨rfl, rfl, ?_, ?_, rfl⟩
  · show f.payload.length % 256 + 256 * (f.payload.length / 256) =
      f.payload.length
    exact Nat.mod_add_div _ _
  · show decodeInt32 (f.pid.toNat % 256 + 256 * (f.pid.toNat / 256 % 256) +
      65536 * (f.pid.toNat / 65536 % 256) +
      16777216 * (f.pid.toNat / 16777216 % 256)) = f.pid
    have ht : f.pid.toNat < 2 ^ 31 := by omega
    have hd : f.pid.toNat % 256 + 256 * (f.pid.toNat / 256 % 256) +
        65536 * (f.pid.toNat / 65536 % 256) +
        16777216 * (f.pid.toNat / 16777216 % 256) = f.pid.toNat := by
      omega
    rw [hd]
    unfold decodeInt32
    rw [if_pos ht]
    exact Int.toNat_of_nonneg (by omega)

theorem headerValid_frame (f : Frame) (hf : ValidFrame f) :
    headerValid ⟨0, 0, f.payload.length, f.pid, frameFlags f⟩ = true := by
  obtain ⟨hp0, hp1, hl0, hl1⟩ := hf
  have hpop : popcount8 (frameFlags f &&& PIPE_PROTO_DEST_MASK) = 1 := by
    unfold frameFlags
    cases f.dest <;> cases f.is_last <;> decide
  unfold headerValid
  have hpid : f.pid ≠ 0 := by omega
  simp [hl0, hpid, hpop]

theorem chunkDest_frame (f : Frame) :
    chunkDest (frameFlags f) = destCode f.dest := by
  unfold frameFlags
  cases f.dest <;> cases f.is_last <;> decide

theorem isLast_frame (f : Frame) :
    decide (frameFlags f &&& PIPE_PROTO_IS_LAST ≠ 0) = f.is_last := by
  unfold frameFlags
  cases f.dest <;> cases f.is_last <;> decide

theorem encodeFrame_drop_header (f : Frame) (rest : List ℕ) :
    (encodeFrame f ++ rest).drop PIPE_HEADER_SIZE = f.payload ++ rest := by
  unfold encodeFrame
  rw [List.append_assoc]
  exact List.drop_left' (encodeHeader_length f)

theorem encodeFrame_payload_extract (f : Frame) (rest : List ℕ) :
    ((encodeFrame f ++ rest).drop PIPE_HEADER_SIZE).take f.payload.length =
      f.payload := by
  rw [encodeFrame_drop_header]
  exact List.take_left _ _

theorem encodeFrame_drop_chunk (f : Frame) (rest : List ℕ) :
    (encodeFrame f ++ rest).drop (PIPE_HEADER_SIZE + f.payload.length) =
      rest :=
  List.drop_left' (encodeFrame_length f)

theorem encodeFrames_cons (f : Frame) (fs : List Frame) :
    encodeFrames (f :: fs) = encodeFrame f ++ encodeFrames fs := by
  simp [encodeFrames]

theorem encodeFrames_append (a b : List Frame) :
    encodeFrames (a ++ b) = encodeFrames a ++ encodeFrames b := by
  simp [encodeFrames]

/-! ## Aligned-stream processing -/

theorem ppiF_aligned (fs : List Frame) :
    ∀ (rest : List ℕ) (bl : BufferLists) (fuel : ℕ),
      (∀ f ∈ fs, ValidFrame f) → Stops rest →
      (encodeFrames fs ++ rest).length ≤ fuel →
      ppiF fuel (encodeFrames fs ++ rest) bl =
        ((runFrames bl fs).1, (runFrames bl fs).2, rest) := by
  induction fs with
  | nil =>
    intro rest bl fuel _ hs _
    have h : encodeFrames [] ++ rest = rest := by simp [encodeFrames]
    rw [h, ppiF_stops fuel rest bl hs]
    rfl
  | cons f fs ih =>
    intro rest bl fuel hv hs hfuel
    have hvf : ValidFrame f := hv f (by simp)
    have hl : encodeFrames (f :: fs) ++ rest =
        encodeFrame f ++ (encodeFrames fs ++ rest) := by
      rw [encodeFrames_cons, List.append_assoc]
    rw [hl] at hfuel ⊢
    have hlen10 : PIPE_HEADER_SIZE + 1 ≤
        (encodeFrame f ++ (encodeFrames fs ++ rest)).length := by
      rw [List.length_append, encodeFrame_length]
      have := hvf.2.2.1
      unfold PIPE_HEADER_SIZE
      omega
    obtain ⟨g, rfl⟩ : ∃ g, fuel = g + 1 := by
      refine ⟨fuel - 1, ?_⟩
      have := le_trans hlen10 hfuel
      unfold PIPE_HEADER_SIZE at this
      omega
    have hrh := readHeader_encodeFrame f hvf (encodeFrames fs ++ rest)
    have hvh : headerValid
        (readHeader (encodeFrame f ++ (encodeFrames fs ++ rest))) = true := by
      rw [hrh]; exact headerValid_frame f hvf
    have hge : PIPE_HEADER_SIZE +
        (readHeader (encodeFrame f ++ (encodeFrames fs ++ rest))).len ≤
        (encodeFrame f ++ (encodeFrames fs ++ rest)).length := by
      rw [hrh]
      show PIPE_HEADER_SIZE + f.payload.length ≤ _
      rw [List.length_append, encodeFrame_length]
      omega
    rw [ppiF_chunk g _ bl hlen10 hvh hge, hrh]
    simp only
    rw [encodeFrame_payload_extract, encodeFrame_drop_chunk, chunkDest_frame,
      isLast_frame]
    have hrec := ih rest
      (handleChunk bl f.pid (destCode f.dest) f.is_last f.payload).1 g
      (fun f' hf' => hv f' (by simp [hf']))
      hs
      (by
        rw [List.length_append, encodeFrame_length] at hfuel
        have hplen := hvf.2.2.1
        unfold PIPE_HEADER_SIZE at hfuel
        omega)
    rw [hrec]
    show _ = ((runFrames bl (f :: fs)).1, (runFrames bl (f :: fs)).2, rest)
    simp only [runFrames]

theorem readHeader_append_left (B X : List ℕ) (h9 : 9 ≤ B.length) :
    readHeader (B ++ X) = readHeader B := by
  unfold readHeader byteAt
  rw [List.getD_append B X 0 0 (by omega), List.getD_append B X 0 1 (by omega),
    List.getD_append B X 0 2 (by omega), List.getD_append B X 0 3 (by omega),
    List.getD_append B X 0 4 (by omega), List.getD_append B X 0 5 (by omega),
    List.getD_append B X 0 6 (by omega), List.getD_append B X 0 7 (by omega),
    List.getD_append B X 0 8 (by omega)]

/-- Any way of cutting a valid frame stream leaves a consumed part that is a
whole number of frames plus a remainder on which the parser stops. -/
theorem stream_prefix_decomp (fs : List Frame) :
    ∀ (B rest' : List ℕ), (∀ f ∈ fs, ValidFrame f) →
      B ++ rest' = encodeFrames fs →
      ∃ ds ts frag, fs = ds ++ ts ∧ B = encodeFrames ds ++ frag ∧
        Stops frag ∧ frag ++ rest' = encodeFrames ts := by
  induction fs with
  | nil =>
    intro B rest' _ heq
    have hB : B = [] ∧ rest' = [] := by
      have : B ++ rest' = [] := by simpa [encodeFrames] using heq
      exact List.append_eq_nil.mp this
    refine ⟨[], [], [], by simp, by simp [hB.1, encodeFrames], ?_, ?_⟩
    · exact Or.inl (by simp [PIPE_HEADER_SIZE])
    · simp [hB.2, encodeFrames]
  | cons f fs ih =>
    intro B rest' hv heq
    have hvf : ValidFrame f := hv f (by simp)
    rw [encodeFrames_cons] at heq
    by_cases hBlen : B.length < (encodeFrame f).length
    · refine ⟨[], f :: fs, B, by simp, by simp [encodeFrames], ?_, by
        rw [encodeFrames_cons]; exact heq⟩
      by_cases hB10 : B.length < PIPE_HEADER_SIZE + 1
      · exact Or.inl hB10
      · right
        have h9 : 9 ≤ B.length := by
          unfold PIPE_HEADER_SIZE at hB10
          omega
        have hrB : readHeader B =
            ⟨0, 0, f.payload.length, f.pid, frameFlags f⟩ := by
          rw [← readHeader_append_left B rest' h9, heq]
          rw [readHeader_encodeFrame f hvf]
        rw [hrB]
        refine ⟨headerValid_frame f hvf, ?_⟩
        show B.length < PIPE_HEADER_SIZE + f.payload.length
        rw [encodeFrame_length] at hBlen
        exact hBlen
    · have hle : (encodeFrame f).length ≤ B.length := by omega
      have htake : B.take (encodeFrame f).length = encodeFrame f := by
        have h1 : (B ++ rest').take (encodeFrame f).length =
            B.take (encodeFrame f).length :=
          List.take_append_of_le_length hle
        have h2 : (B ++ rest').take (encodeFrame f).length = encodeFrame f := by
          rw [heq]
          exact List.take_left _ _
        rw [← h1, h2]
      have hdrop : B.drop (encodeFrame f).length ++ rest' = encodeFrames fs := by
        have h1 : (B ++ rest').drop (encodeFrame f).length =
            B.drop (encodeFrame f).length ++ rest' :=
          List.drop_append_of_le_length hle
        have h2 : (B ++ rest').drop (encodeFrame f).length = encodeFrames fs := by
          rw [heq]
          exact List.drop_left _ _
        rw [← h1, h2]
      obtain ⟨ds, ts, frag, hts, hB, hstop, hrest⟩ :=
        ih (B.drop (encodeFrame f).length) rest'
          (fun f' hf' => hv f' (by simp [hf'])) hdrop
      refine ⟨f :: ds, ts, frag, by simp [hts], ?_, hstop, hrest⟩
      calc B = B.take (encodeFrame f).length ++ B.drop (encodeFrame f).length :=
            (List.take_append_drop _ B).symm
        _ = encodeFrame f ++ (encodeFrames ds ++ frag) := by rw [htake, hB]
        _ = encodeFrames (f :: ds) ++ frag := by
            rw [encodeFrames_cons, List.append_assoc]

theorem runFrames_append (a : List Frame) :
    ∀ (b : List Frame) (bl : BufferLists),
      runFrames bl (a ++ b) =
        ((runFrames (runFrames bl a).1 b).1,
         (runFrames bl a).2 ++ (runFrames (runFrames bl a).1 b).2) := by
  induction a with
  | nil => intro b bl; simp [runFrames]
  | cons f a ih =>
    intro b bl
    simp only [List.cons_append, runFrames]
    rw [show a.append b = a ++ b from rfl, ih]
    simp [List.append_assoc]

/-- Feeding any chunking of a valid frame stream through the read loop:
every read appends to the remainder, the parser consumes whole frames, and
at the end nothing is left over. -/
theorem feed_go (reads : List (List ℕ)) :
    ∀ (ts : List Frame) (bl : BufferLists) (frag : List ℕ)
      (recs0 : List LogRec),
      (∀ f ∈ ts, ValidFrame f) → Stops frag →
      frag ++ reads.flatten = encodeFrames ts →
      reads.foldl feedStep (bl, recs0, frag) =
        ((runFrames bl ts).1, recs0 ++ (runFrames bl ts).2, []) := by
  induction reads with
  | nil =>
    intro ts bl frag recs0 hv hs heq
    have heq' : frag = encodeFrames ts := by simpa using heq
    cases ts with
    | nil =>
      have : frag = [] := by simpa [encodeFrames] using heq'
      subst this
      simp [runFrames]
    | cons t ts' =>
      exfalso
      have hvt : ValidFrame t := hv t (by simp)
      rw [encodeFrames_cons] at heq'
      subst heq'
      have hplen : 0 < t.payload.length := hvt.2.2.1
      have hlen : (encodeFrame t ++ encodeFrames ts').length =
          PIPE_HEADER_SIZE + t.payload.length + (encodeFrames ts').length := by
        rw [List.length_append, encodeFrame_length]
      rcases hs with h | ⟨_, hlt⟩
      · unfold PIPE_HEADER_SIZE at hlen h
        omega
      · rw [readHeader_encodeFrame t hvt] at hlt
        have : (encodeFrame t ++ encodeFrames ts').length <
            PIPE_HEADER_SIZE + t.payload.length := hlt
        omega
  | cons r rs ih =>
    intro ts bl frag recs0 hv hs heq
    rw [List.flatten_cons] at heq
    have heq' : (frag ++ r) ++ rs.flatten = encodeFrames ts := by
      rw [List.append_assoc]
      exact heq
    obtain ⟨ds, ts', frag', hts, hB, hstop', hrest⟩ :=
      stream_prefix_decomp ts (frag ++ r) rs.flatten hv heq'
    have hvds : ∀ f ∈ ds, ValidFrame f := fun f hf =>
      hv f (by rw [hts]; exact List.mem_append.mpr (Or.inl hf))
    have hvts' : ∀ f ∈ ts', ValidFrame f := fun f hf =>
      hv f (by rw [hts]; exact List.mem_append.mpr (Or.inr hf))
    have hproc : process_pipe_input (frag ++ r) bl =
        ((runFrames bl ds).1, (runFrames bl ds).2, frag') := by
      rw [hB]
      unfold process_pipe_input
      exact ppiF_aligned ds frag' bl _ hvds hstop' (le_refl _)
    have hstep : feedStep (bl, recs0, frag) r =
        ((runFrames bl ds).1, recs0 ++ (runFrames bl ds).2, frag') := by
      unfold feedStep
      simp only
      rw [hproc]
    rw [List.foldl_cons, hstep,
      ih ts' (runFrames bl ds).1 frag' (recs0 ++ (runFrames bl ds).2)
        hvts' hstop' hrest,
      hts, runFrames_append]
    simp [List.append_assoc]

/-- Any chunking of a complete valid frame stream is fully consumed, with
the same reassembly behaviour as processing the frames one by one. -/
theorem feed_complete (fs : List Frame) (reads : List (List ℕ))
    (hv : ∀ f ∈ fs, ValidFrame f)
    (hjoin : reads.flatten = encodeFrames fs) :
    feedReads reads =
      ((runFrames initBufferLists fs).1, (runFrames initBufferLists fs).2,
       []) := by
  unfold feedReads
  have := feed_go reads fs initBufferLists [] [] hv
    (Or.inl (by simp [PIPE_HEADER_SIZE])) (by simpa using hjoin)
  simpa using this

/-! ## Reassembly-slot list lemmas -/

theorem countPid_eq_zero_of_not_any (l : List save_buffer) (pid : ℤ)
    (h : l.any (fun s => s.pid == pid) = false) : countPid l pid = 0 := by
  unfold countPid
  rw [List.countP_eq_zero]
  intro s hs
  have := List.any_eq_false.mp h s hs
  simpa using this

theorem find?_eq_none_of_countPid_zero (l : List save_buffer) (q : ℤ)
    (hz : countPid l q = 0) : l.find? (fun s => s.pid == q) = none := by
  rw [List.find?_eq_none]
  intro s hs
  unfold countPid at hz
  rw [List.countP_eq_zero] at hz
  exact hz s hs

theorem slotData_of_not_any (l : List save_buffer) (pid : ℤ)
    (h : l.any (fun s => s.pid == pid) = false) : slotData l pid = [] := by
  unfold slotData
  rw [find?_eq_none_of_countPid_zero l pid (countPid_eq_zero_of_not_any l pid h)]
  rfl

theorem appendToExisting_pid_mem (l : List save_buffer) (pid : ℤ)
    (pl : List ℕ) :
    ∀ s ∈ appendToExisting l pid pl, ∃ s₀ ∈ l, s₀.pid = s.pid := by
  induction l with
  | nil => intro s hs; simp [appendToExisting] at hs
  | cons a t ih =>
    intro s hs
    unfold appendToExisting at hs
    split at hs
    · rcases List.mem_cons.mp hs with h | h
      · subst h
        exact ⟨a, by simp, by assumption⟩
      · exact ⟨s, by simp [h], rfl⟩
    · rcases List.mem_cons.mp hs with h | h
      · subst h; exact ⟨s, by simp, rfl⟩
      · obtain ⟨s₀, hs₀, he⟩ := ih s h
        exact ⟨s₀, by simp [hs₀], he⟩

theorem appendToExisting_countPid (l : List save_buffer) (pid : ℤ)
    (pl : List ℕ) (q : ℤ) :
    countPid (appendToExisting l pid pl) q = countPid l q := by
  induction l with
  | nil => rfl
  | cons a t ih =>
    unfold appendToExisting
    split
    · rename_i h
      unfold countPid
      rw [List.countP_cons, List.countP_cons]
      simp only [h]
    · unfold countPid
      rw [List.countP_cons, List.countP_cons]
      unfold countPid at ih
      rw [ih]

theorem slotData_appendToExisting_same (l : List save_buffer) (pid : ℤ)
    (pl : List ℕ) (h : l.any (fun s => s.pid == pid) = true) :
    slotData (appendToExisting l pid pl) pid = slotData l pid ++ pl := by
  induction l with
  | nil => simp at h
  | cons a t ih =>
    unfold appendToExisting
    by_cases ha : a.pid = pid
    · rw [if_pos ha]
      unfold slotData
      rw [List.find?_cons_of_pos _ (by simp), List.find?_cons_of_pos _ (by simp [ha])]
      simp
    · rw [if_neg ha]
      unfold slotData
      rw [List.find?_cons_of_neg _ (by simp [ha]), List.find?_cons_of_neg _ (by simp [ha])]
      have ht : t.any (fun s => s.pid == pid) = true := by
        rcases List.any_eq_true.mp h with ⟨s, hs, hsp⟩
        rcases List.mem_cons.mp hs with rfl | hs'
        · exact absurd (by simpa using hsp) ha
        · exact List.any_eq_true.mpr ⟨s, hs', hsp⟩
      exact ih ht

theorem slotData_appendToExisting_other (l : List save_buffer) (pid : ℤ)
    (pl : List ℕ) (q : ℤ) (hq : q ≠ pid) :
    slotData (appendToExisting l pid pl) q = slotData l q := by
  induction l with
  | nil => rfl
  | cons a t ih =>
    unfold appendToExisting
    by_cases ha : a.pid = pid
    · rw [if_pos ha]
      unfold slotData
      rw [List.find?_cons_of_neg _ (by simp [Ne.symm hq]),
        List.find?_cons_of_neg _ (by simp [ha, Ne.symm hq])]
    · rw [if_neg ha]
      by_cases haq : a.pid = q
      · unfold slotData
        rw [List.find?_cons_of_pos _ (by simp [haq]),
          List.find?_cons_of_pos _ (by simp [haq])]
      · unfold slotData
        rw [List.find?_cons_of_neg _ (by simp [haq]),
          List.find?_cons_of_neg _ (by simp [haq])]
        exact ih

theorem fillFree_pid_mem (l : List save_buffer) (pid : ℤ) (pl : List ℕ) :
    ∀ s ∈ fillFree l pid pl, (∃ s₀ ∈ l, s₀.pid = s.pid) ∨ s.pid = pid := by
  induction l with
  | nil =>
    intro s hs
    unfold fillFree at hs
    rcases List.mem_singleton.mp hs with rfl
    right; rfl
  | cons a t ih =>
    intro s hs
    unfold fillFree at hs
    split at hs
    · rcases List.mem_cons.mp hs with h | h
      · subst h; right; rfl
      · exact Or.inl ⟨s, by simp [h], rfl⟩
    · rcases List.mem_cons.mp hs with h | h
      · subst h; exact Or.inl ⟨s, by simp, rfl⟩
      · rcases ih s h with ⟨s₀, hs₀, he⟩ | he
        · exact Or.inl ⟨s₀, by simp [hs₀], he⟩
        · exact Or.inr he

theorem fillFree_countPid_other (l : List save_buffer) (pid : ℤ)
    (pl : List ℕ) (q : ℤ) (hq0 : q ≠ 0) (hqp : q ≠ pid) :
    countPid (fillFree l pid pl) q = countPid l q := by
  induction l with
  | nil =>
    unfold fillFree countPid
    simp [Ne.symm hqp]
  | cons a t ih =>
    unfold fillFree
    split
    · rename_i h
      unfold countPid
      rw [List.countP_cons, List.countP_cons]
      simp only [h]
      have h1 : (((⟨pid, pl⟩ : save_buffer).pid == q) = false) := by
        simp [Ne.symm hqp]
      have h2 : (((0 : ℤ) == q) = false) := by simp [Ne.symm hq0]
      simp [h1, h2]
    · unfold countPid
      rw [List.countP_cons, List.countP_cons]
      unfold countPid at ih
      rw [ih]

theorem fillFree_countPid_same (l : List save_buffer) (pid : ℤ)
    (pl : List ℕ) (hnot : l.any (fun s => s.pid == pid) = false) :
    countPid (fillFree l pid pl) pid = 1 := by
  induction l with
  | nil =>
    unfold fillFree countPid
    simp
  | cons a t ih =>
    have hhead : (a.pid == pid) = false := by
      have := List.any_eq_false.mp hnot a (by simp)
      simpa using this
    have htail : t.any (fun s => s.pid == pid) = false := by
      rw [List.any_eq_false]
      intro s hs
      exact List.any_eq_false.mp hnot s (by simp [hs])
    unfold fillFree
    split
    · unfold countPid
      rw [List.countP_cons]
      have : countPid t pid = 0 := countPid_eq_zero_of_not_any t pid htail
      unfold countPid at this
      simp [this]
    · unfold countPid
      rw [List.countP_cons]
      unfold countPid at ih
      rw [ih htail]
      simp [hhead]

theorem slotData_fillFree_same (l : List save_buffer) (pid : ℤ)
    (pl : List ℕ) (hnot : l.any (fun s => s.pid == pid) = false) :
    slotData (fillFree l pid pl) pid = pl := by
  induction l with
  | nil =>
    unfold fillFree slotData
    rw [List.find?_cons_of_pos _ (by simp)]
    rfl
  | cons a t ih =>
    have hhead : (a.pid == pid) = false := by
      have := List.any_eq_false.mp hnot a (by simp)
      simpa using this
    have htail : t.any (fun s => s.pid == pid) = false := by
      rw [List.any_eq_false]
      intro s hs
      exact List.any_eq_false.mp hnot s (by simp [hs])
    unfold fillFree
    split
    · unfold slotData
      rw [List.find?_cons_of_pos _ (by simp)]
      rfl
    · unfold slotData
      rw [List.find?_cons_of_neg _ (by simp [hhead])]
      exact ih htail

theorem slotData_fillFree_other (l : List save_buffer) (pid : ℤ)
    (pl : List ℕ) (q : ℤ) (hq0 : q ≠ 0) (hqp : q ≠ pid) :
    slotData (fillFree l pid pl) q = slotData l q := by
  induction l with
  | nil =>
    unfold fillFree slotData
    rw [List.find?_cons_of_neg _ (by simp [Ne.symm hqp])]
  | cons a t ih =>
    unfold fillFree
    split
    · rename_i h
      unfold slotData
      rw [List.find?_cons_of_neg _ (by simp [Ne.symm hqp]),
        List.find?_cons_of_neg _ (by simp [h, Ne.symm hq0])]
    · by_cases haq : a.pid = q
      · unfold slotData
        rw [List.find?_cons_of_pos _ (by simp [haq]),
          List.find?_cons_of_pos _ (by simp [haq])]
      · unfold slotData
        rw [List.find?_cons_of_neg _ (by simp [haq]),
          List.find?_cons_of_neg _ (by simp [haq])]
        exact ih

theorem freeExisting_pid_mem (l : List save_buffer) (pid : ℤ) :
    ∀ s ∈ freeExisting l pid, s ∈ l ∨ s.pid = 0 := by
  induction l with
  | nil => intro s hs; simp [freeExisting] at hs
  | cons a t ih =>
    intro s hs
    unfold freeExisting at hs
    split at hs
    · rcases List.mem_cons.mp hs with h | h
      · subst h; right; rfl
      · exact Or.inl (by simp [h])
    · rcases List.mem_cons.mp hs with h | h
      · subst h; exact Or.inl (by simp)
      · rcases ih s h with h' | h'
        · exact Or.inl (by simp [h'])
        · exact Or.inr h'

theorem freeExisting_countPid_other (l : List save_buffer) (pid : ℤ)
    (q : ℤ) (hq0 : q ≠ 0) (hqp : q ≠ pid) :
    countPid (freeExisting l pid) q = countPid l q := by
  induction l with
  | nil => rfl
  | cons a t ih =>
    unfold freeExisting
    split
    · rename_i h
      unfold countPid
      rw [List.countP_cons, List.countP_cons]
      simp [h, Ne.symm hqp, Ne.symm hq0]
    · unfold countPid
      rw [List.countP_cons, List.countP_cons]
      unfold countPid at ih
      rw [ih]

theorem freeExisting_countPid_le (l : List save_buffer) (pid : ℤ)
    (hpid : pid ≠ 0) :
    countPid (freeExisting l pid) pid ≤ countPid l pid := by
  induction l with
  | nil => exact le_refl _
  | cons a t ih =>
    unfold freeExisting
    split
    · rename_i h
      unfold countPid
      rw [List.countP_cons, List.countP_cons]
      have h1 : (((⟨0, []⟩ : save_buffer).pid == pid) = false) := by
        simp [Ne.symm hpid]
      have h2 : ((a.pid == pid) = true) := by simp [h]
      simp only [h1, h2]
      simp
    · rename_i h
      unfold countPid
      rw [List.countP_cons, List.countP_cons]
      have h2 : ((a.pid == pid) = false) := by simp [h]
      simp only [h2]
      unfold countPid at ih
      simp
      exact ih

theorem slotData_freeExisting_same (l : List save_buffer) (pid : ℤ)
    (hpid : pid ≠ 0) (hcount : countPid l pid ≤ 1) :
    slotData (freeExisting l pid) pid = [] := by
  induction l with
  | nil => rfl
  | cons a t ih =>
    unfold freeExisting
    split
    · rename_i h
      unfold slotData
      rw [List.find?_cons_of_neg _ (by simp [Ne.symm hpid])]
      have htz : countPid t pid = 0 := by
        have hc' : countPid (a :: t) pid = countPid t pid + 1 := by
          unfold countPid
          rw [List.countP_cons]
          simp [h]
        omega
      rw [find?_eq_none_of_countPid_zero t pid htz]
      rfl
    · rename_i h
      unfold slotData
      rw [List.find?_cons_of_neg _ (by simp [h])]
      have hct : countPid t pid ≤ 1 := by
        unfold countPid at hcount ⊢
        rw [List.countP_cons] at hcount
        omega
      exact ih hct

theorem slotData_freeExisting_other (l : List save_buffer) (pid : ℤ)
    (q : ℤ) (hq0 : q ≠ 0) (hqp : q ≠ pid) :
    slotData (freeExisting l pid) q = slotData l q := by
  induction l with
  | nil => rfl
  | cons a t ih =>
    unfold freeExisting
    split
    · rename_i h
      unfold slotData
      rw [List.find?_cons_of_neg _ (by simp [Ne.symm hq0]),
        List.find?_cons_of_neg _ (by simp [h, Ne.symm hqp])]
    · by_cases haq : a.pid = q
      · unfold slotData
        rw [List.find?_cons_of_pos _ (by simp [haq]),
          List.find?_cons_of_pos _ (by simp [haq])]
      · unfold slotData
        rw [List.find?_cons_of_neg _ (by simp [haq]),
          List.find?_cons_of_neg _ (by simp [haq])]
        exact ih

/-! ## `handleChunk` specification -/

theorem BLInv_update (bl : BufferLists) (hinv : BLInv bl) (b : Fin 256)
    (newlist : List save_buffer)
    (hmem : ∀ s ∈ newlist, s.pid ≠ 0 → bucketOf s.pid = b)
    (hcnt : ∀ q : ℤ, q ≠ 0 → countPid newlist q ≤ 1) :
    BLInv (Function.update bl b newlist) := by
  intro i
  by_cases hib : i = b
  · subst hib
    rw [Function.update_same]
    exact ⟨hmem, hcnt⟩
  · rw [Function.update_noteq hib]
    exact hinv i

theorem handleChunk_BLInv (bl : BufferLists) (pid : ℤ) (dest : ℕ) (il : Bool)
    (payload : List ℕ) (hinv : BLInv bl) (hpid : pid ≠ 0) :
    BLInv (handleChunk bl pid dest il payload).1 := by
  unfold handleChunk
  rcases il <;>
    rcases hany : (bl (bucketOf pid)).any (fun s => s.pid == pid) <;>
    simp only [hany, Bool.false_eq_true, if_false, if_true]
  · -- non-final, no existing slot: fill the first free slot
    refine BLInv_update bl hinv _ _ ?_ ?_
    · intro s hs hs0
      rcases fillFree_pid_mem (bl (bucketOf pid)) pid payload s hs with
        ⟨s₀, hs₀, he⟩ | he
      · rw [← he]
        exact (hinv (bucketOf pid)).1 s₀ hs₀ (he ▸ hs0)
      · rw [he]
    · intro q hq
      by_cases hqp : q = pid
      · subst hqp
        rw [fillFree_countPid_same _ _ _ hany]
      · rw [fillFree_countPid_other _ _ _ _ hq hqp]
        exact (hinv (bucketOf pid)).2 q hq
  · -- non-final, existing slot: append in place
    refine BLInv_update bl hinv _ _ ?_ ?_
    · intro s hs hs0
      obtain ⟨s₀, hs₀, he⟩ :=
        appendToExisting_pid_mem (bl (bucketOf pid)) pid payload s hs
      rw [← he]
      exact (hinv (bucketOf pid)).1 s₀ hs₀ (he ▸ hs0)
    · intro q hq
      rw [appendToExisting_countPid]
      exact (hinv (bucketOf pid)).2 q hq
  · -- final, no existing slot: state unchanged
    exact hinv
  · -- final, existing slot: free it
    refine BLInv_update bl hinv _ _ ?_ ?_
    · intro s hs hs0
      rcases freeExisting_pid_mem (bl (bucketOf pid)) pid s hs with h | h
      · exact (hinv (bucketOf pid)).1 s h hs0
      · exact absurd h hs0
    · intro q hq
      by_cases hqp : q = pid
      · rw [hqp]
        exact le_trans (freeExisting_countPid_le _ _ hpid)
          ((hinv (bucketOf pid)).2 pid hpid)
      · rw [freeExisting_countPid_other _ _ _ hq hqp]
        exact (hinv (bucketOf pid)).2 q hq

theorem handleChunk_recs (bl : BufferLists) (pid : ℤ) (dest : ℕ) (il : Bool)
    (payload : List ℕ) :
    (handleChunk bl pid dest il payload).2 =
      if il then [⟨some pid, dest, slotDataOf bl pid ++ payload⟩] else [] := by
  unfold handleChunk slotDataOf
  cases il with
  | false =>
    cases hany : (bl (bucketOf pid)).any (fun s => s.pid == pid) with
    | false => simp [hany]
    | true => simp [hany]
  | true =>
    cases hany : (bl (bucketOf pid)).any (fun s => s.pid == pid) with
    | false => simp [hany, slotData_of_not_any _ _ hany]
    | true => simp [hany]

theorem handleChunk_slot_same (bl : BufferLists) (pid : ℤ) (dest : ℕ)
    (il : Bool) (payload : List ℕ) (hinv : BLInv bl) (hpid : pid ≠ 0) :
    slotDataOf (handleChunk bl pid dest il payload).1 pid =
      if il then [] else slotDataOf bl pid ++ payload := by
  unfold handleChunk slotDataOf
  rcases il <;>
    rcases hany : (bl (bucketOf pid)).any (fun s => s.pid == pid) <;>
    simp only [hany, Bool.false_eq_true, if_false, if_true]
  · rw [Function.update_same]
    rw [slotData_fillFree_same _ _ _ hany, slotData_of_not_any _ _ hany]
    rfl
  · rw [Function.update_same]
    exact slotData_appendToExisting_same _ _ _ hany
  · exact slotData_of_not_any _ _ hany
  · rw [Function.update_same]
    exact slotData_freeExisting_same _ _ hpid ((hinv (bucketOf pid)).2 pid hpid)

theorem handleChunk_slot_other (bl : BufferLists) (pid : ℤ) (dest : ℕ)
    (il : Bool) (payload : List ℕ) (q : ℤ) (hq0 : q ≠ 0) (hqp : q ≠ pid) :
    slotDataOf (handleChunk bl pid dest il payload).1 q = slotDataOf bl q := by
  unfold handleChunk slotDataOf
  rcases il <;>
    rcases hany : (bl (bucketOf pid)).any (fun s => s.pid == pid) <;>
    simp only [hany, Bool.false_eq_true, if_false, if_true]
  · by_cases hbq : bucketOf q = bucketOf pid
    · rw [hbq, Function.update_same]
      exact slotData_fillFree_other _ _ _ _ hq0 hqp
    · rw [Function.update_noteq hbq]
  · by_cases hbq : bucketOf q = bucketOf pid
    · rw [hbq, Function.update_same]
      exact slotData_appendToExisting_other _ _ _ _ hqp
    · rw [Function.update_noteq hbq]
  · by_cases hbq : bucketOf q = bucketOf pid
    · rw [hbq, Function.update_same]
      exact slotData_freeExisting_other _ _ _ hq0 hqp
    · rw [Function.update_noteq hbq]

/-! ## Records produced by a frame sequence -/

theorem BLInv_init : BLInv initBufferLists := by
  intro i
  constructor
  · intro s hs
    simp [initBufferLists] at hs
  · intro q hq
    simp [initBufferLists, countPid]

theorem BLInv_slotUniq (bl : BufferLists) (h : BLInv bl) : SlotUniq bl := by
  intro p hp
  have hz : ∀ i : Fin 256, i ≠ bucketOf p → countPid (bl i) p = 0 := by
    intro i hi
    by_contra h0
    have hpos : 0 < countPid (bl i) p := Nat.pos_of_ne_zero h0
    unfold countPid at hpos
    rw [List.countP_pos_iff] at hpos
    obtain ⟨s, hs, hsp⟩ := hpos
    have hsp' : s.pid = p := by simpa using hsp
    have := (h i).1 s hs (by rw [hsp']; exact hp)
    rw [hsp'] at this
    exact hi this.symm
  rw [Finset.sum_eq_single (bucketOf p)
    (fun i _ hi => hz i hi) (fun hmem => absurd (Finset.mem_univ _) hmem)]
  exact (h (bucketOf p)).2 p hp

theorem headerValid_pid_ne (p : PipeProtoHeader) (h : headerValid p = true) :
    p.pid ≠ 0 := by
  unfold headerValid at h
  simp only [Bool.and_eq_true, bne_iff_ne] at h
  exact h.1.2

theorem ppiF_BLInv (fuel : ℕ) : ∀ (l : List ℕ) (bl : BufferLists),
    BLInv bl → BLInv (ppiF fuel l bl).1 := by
  induction fuel with
  | zero => intro l bl h; exact h
  | succ g ih =>
    intro l bl h
    by_cases h10 : PIPE_HEADER_SIZE + 1 ≤ l.length
    · by_cases hv : headerValid (readHeader l) = true
      · by_cases hlt : l.length < PIPE_HEADER_SIZE + (readHeader l).len
        · rw [ppiF_incomplete (g + 1) l bl h10 hv hlt]
          exact h
        · rw [ppiF_chunk g l bl h10 hv (by omega)]
          exact ih _ _ (handleChunk_BLInv _ _ _ _ _ h (headerValid_pid_ne _ hv))
      · have hv' : headerValid (readHeader l) = false := by
          cases h' : headerValid (readHeader l)
          · rfl
          · exact absurd h' hv
        rw [ppiF_invalid g l bl h10 hv']
        exact ih _ _ h
    · rw [ppiF_short (g + 1) l bl (by omega)]
      exact h

theorem groupRecords_cons (pend : List ℕ) (f : Frame) (fs : List Frame) :
    groupRecords pend (f :: fs) =
      if f.is_last then (pend ++ f.payload) :: groupRecords [] fs
      else groupRecords (pend ++ f.payload) fs := rfl

theorem groupPend_cons (pend : List ℕ) (f : Frame) (fs : List Frame) :
    groupPend pend (f :: fs) =
      groupPend (if f.is_last then [] else pend ++ f.payload) fs := rfl

theorem recsFor_append (p : ℤ) (a b : List LogRec) :
    recsFor p (a ++ b) = recsFor p a ++ recsFor p b := by
  unfold recsFor
  rw [List.filterMap_append]

theorem recsFor_single_same (p : ℤ) (dest : ℕ) (bytes : List ℕ) :
    recsFor p [⟨some p, dest, bytes⟩] = [bytes] := by
  simp [recsFor]

theorem recsFor_single_other (p q : ℤ) (dest : ℕ) (bytes : List ℕ)
    (h : q ≠ p) : recsFor p [⟨some q, dest, bytes⟩] = [] := by
  simp [recsFor, h]

/-- Every record produced by a chunk sequence is the reassembly, in order,
of a single producer's payloads: per pid the records and the pending slot
bytes follow the per-pid reference machine. -/
theorem runFrames_spec (fs : List Frame) : ∀ (bl : BufferLists), BLInv bl →
    (∀ f ∈ fs, f.pid ≠ 0) →
    BLInv (runFrames bl fs).1 ∧
    ∀ p : ℤ, p ≠ 0 →
      recsFor p (runFrames bl fs).2 =
        groupRecords (slotDataOf bl p) (framesFor p fs) ∧
      slotDataOf (runFrames bl fs).1 p =
        groupPend (slotDataOf bl p) (framesFor p fs) := by
  induction fs with
  | nil =>
    intro bl hinv _
    exact ⟨hinv, fun p _ => ⟨rfl, rfl⟩⟩
  | cons f fs ih =>
    intro bl hinv hpids
    have hfp : f.pid ≠ 0 := hpids f (by simp)
    have hinv' : BLInv (handleChunk bl f.pid (destCode f.dest) f.is_last
        f.payload).1 :=
      handleChunk_BLInv _ _ _ _ _ hinv hfp
    obtain ⟨ihinv, ihrec⟩ := ih _ hinv' (fun f' hf' => hpids f' (by simp [hf']))
    have hrun : runFrames bl (f :: fs) =
        ((runFrames (handleChunk bl f.pid (destCode f.dest) f.is_last
            f.payload).1 fs).1,
         (handleChunk bl f.pid (destCode f.dest) f.is_last f.payload).2 ++
           (runFrames (handleChunk bl f.pid (destCode f.dest) f.is_last
              f.payload).1 fs).2) := by
      simp only [runFrames]
    rw [hrun]
    refine ⟨ihinv, ?_⟩
    intro p hp
    obtain ⟨ihr, ihs⟩ := ihrec p hp
    have hrecs := handleChunk_recs bl f.pid (destCode f.dest) f.is_last
      f.payload
    by_cases hpf : p = f.pid
    · subst hpf
      have hfilter : framesFor f.pid (f :: fs) = f :: framesFor f.pid fs := by
        unfold framesFor
        rw [List.filter_cons_of_pos (by simp)]
      have hslot := handleChunk_slot_same bl f.pid (destCode f.dest) f.is_last
        f.payload hinv hp
      cases hil : f.is_last
      · rw [hil] at hslot hrecs ihr ihs
        simp only [Bool.false_eq_true, if_false] at hslot hrecs
        refine ⟨?_, ?_⟩
        · rw [recsFor_append, hrecs, ihr, hslot, hfilter, groupRecords_cons,
            hil]
          simp [recsFor]
        · rw [ihs, hslot, hfilter, groupPend_cons, hil]
          simp
      · rw [hil] at hslot hrecs ihr ihs
        simp only [if_true] at hslot hrecs
        refine ⟨?_, ?_⟩
        · rw [recsFor_append, hrecs, recsFor_single_same, ihr, hslot, hfilter,
            groupRecords_cons, hil]
          simp
        · rw [ihs, hslot, hfilter, groupPend_cons, hil]
          simp
    · have hfp' : ¬f.pid = p := fun h => hpf (Eq.symm h)
      have hfilter : framesFor p (f :: fs) = framesFor p fs := by
        unfold framesFor
        rw [List.filter_cons_of_neg (by simp [hfp'])]
      have hslot := handleChunk_slot_other bl f.pid (destCode f.dest)
        f.is_last f.payload p hp hpf
      have hz : recsFor p (handleChunk bl f.pid (destCode f.dest) f.is_last
          f.payload).2 = [] := by
        rw [hrecs]
        cases hil : f.is_last
        · rfl
        · simp only [if_true]
          exact recsFor_single_other p f.pid _ _ hfp'
      refine ⟨?_, ?_⟩
      · rw [recsFor_append, hz, List.nil_append, ihr, hslot, hfilter]
      · rw [ihs, hslot, hfilter]

/-! ## C1 and C2 -/

theorem groupRecords_flatten (fs : List Frame) : ∀ (pend : List ℕ),
    fs ≠ [] → endsWithLast fs = true →
    (groupRecords pend fs).flatten = pend ++ (fs.map Frame.payload).flatten := by
  induction fs with
  | nil => intro pend hne _; exact absurd rfl hne
  | cons f fs ih =>
    intro pend _ hlast
    cases fs with
    | nil =>
      have hl : f.is_last = true := hlast
      rw [groupRecords_cons, hl]
      simp [groupRecords]
    | cons g gs =>
      have hlast' : endsWithLast (g :: gs) = true := by
        unfold endsWithLast at hlast ⊢
        have h' : (f :: g :: gs).getLast? = (g :: gs).getLast? :=
          List.getLast?_cons_cons
        rw [← h']
        exact hlast
      rw [groupRecords_cons]
      cases hil : f.is_last
      · simp only [Bool.false_eq_true, if_false]
        rw [ih (pend ++ f.payload) (by simp) hlast']
        simp
      · simp only [if_true]
        rw [List.flatten_cons, ih [] (by simp) hlast']
        simp

/-- C1: for a single producer `P` emitting any sequence of valid framed
chunks ending in an `IS_LAST` chunk, and for any way of splitting the byte
stream into successive reads, the byte concatenation of the records that
`process_pipe_input` emits for `P` equals the byte concatenation of the
producer's chunk payloads in write order. -/
theorem c1_single_producer_byte_stream (P : ℤ) (fs : List Frame)
    (reads : List (List ℕ))
    (hv : ∀ f ∈ fs, ValidFrame f)
    (hpid : ∀ f ∈ fs, f.pid = P)
    (hlast : endsWithLast fs = true)
    (hjoin : reads.flatten = encodeFrames fs) :
    (recsFor P (feedReads reads).2.1).flatten =
      (fs.map Frame.payload).flatten := by
  by_cases hn : fs = []
  · subst hn
    rw [feed_complete [] reads hv (by simpa using hjoin)]
    rfl
  · have hpids : ∀ f ∈ fs, f.pid ≠ 0 := fun f hf => by
      have h1 := (hv f hf).1
      omega
    have hP0 : P ≠ 0 := by
      obtain ⟨f0, hf0⟩ := List.exists_mem_of_ne_nil fs hn
      rw [← hpid f0 hf0]
      exact hpids f0 hf0
    have hfeed := feed_complete fs reads hv hjoin
    have hrec :=
      ((runFrames_spec fs initBufferLists BLInv_init hpids).2 P hP0).1
    rw [hfeed]
    show (recsFor P (runFrames initBufferLists fs).2).flatten = _
    rw [hrec]
    have hall : framesFor P fs = fs := by
      unfold framesFor
      exact List.filter_eq_self.mpr (fun f hf => by simp [hpid f hf])
    rw [hall]
    show (groupRecords ([] : List ℕ) fs).flatten = _
    rw [groupRecords_flatten fs [] hn hlast]
    rfl

/-- C2: for any interleaving of valid frames from any set of producers and
any read chunking, the records emitted for a pid `p` are exactly the
reference reassembly of `p`'s own frames — no emitted record contains bytes
from another producer; and after every call to `process_pipe_input` (on any
input whatsoever) the buffer-list invariant is preserved, so at most one
reassembly slot across all 256 lists holds any given nonzero pid. -/
theorem c2_producer_isolation (fs : List Frame) (reads : List (List ℕ))
    (hv : ∀ f ∈ fs, ValidFrame f)
    (hjoin : reads.flatten = encodeFrames fs) :
    (∀ p : ℤ, p ≠ 0 →
      recsFor p (feedReads reads).2.1 = groupRecords [] (framesFor p fs)) ∧
    (∀ (l : List ℕ) (bl : BufferLists), BLInv bl →
      BLInv (process_pipe_input l bl).1 ∧
      SlotUniq (process_pipe_input l bl).1) ∧
    SlotUniq (feedReads reads).1 := by
  have hpids : ∀ f ∈ fs, f.pid ≠ 0 := fun f hf => by
    have h1 := (hv f hf).1
    omega
  have hfeed := feed_complete fs reads hv hjoin
  have hspec := runFrames_spec fs initBufferLists BLInv_init hpids
  refine ⟨?_, ?_, ?_⟩
  · intro p hp
    rw [hfeed]
    show recsFor p (runFrames initBufferLists fs).2 = _
    rw [(hspec.2 p hp).1]
    rfl
  · intro l bl hbl
    have h1 : BLInv (process_pipe_input l bl).1 := ppiF_BLInv l.length l bl hbl
    exact ⟨h1, BLInv_slotUniq _ h1⟩
  · rw [hfeed]
    show SlotUniq (runFrames initBufferLists fs).1
    exact BLInv_slotUniq _ hspec.1

/-- Witness for C1: producer pid 7 sends a non-final chunk `"ab"` and a
final chunk `"c"`, the stream is split mid-frame between two reads; the
emitted bytes are `"abc"`. -/
theorem c1_single_producer_byte_stream_witness :
    (recsFor 7 (feedReads
      [(encodeFrames [⟨7, .text, false, [97, 98]⟩, ⟨7, .text, true, [99]⟩]).take 13,
       (encodeFrames [⟨7, .text, false, [97, 98]⟩, ⟨7, .text, true, [99]⟩]).drop 13]).2.1).flatten =
      (([⟨7, .text, false, [97, 98]⟩, ⟨7, .text, true, [99]⟩] :
        List Frame).map Frame.payload).flatten :=
  c1_single_producer_byte_stream 7
    [⟨7, .text, false, [97, 98]⟩, ⟨7, .text, true, [99]⟩]
    [(encodeFrames [⟨7, .text, false, [97, 98]⟩, ⟨7, .text, true, [99]⟩]).take 13,
     (encodeFrames [⟨7, .text, false, [97, 98]⟩, ⟨7, .text, true, [99]⟩]).drop 13]
    (by decide) (by decide) (by decide) (by decide)

/-- Witness for C2: pid 7 sends `"ab"` (non-final), pid 9 a complete `"X"`,
pid 7 a final `"c"`, in one read. -/
theorem c2_producer_isolation_witness :
    (∀ p : ℤ, p ≠ 0 →
      recsFor p (feedReads
        [encodeFrames [⟨7, .text, false, [97, 98]⟩, ⟨9, .text, true, [88]⟩,
          ⟨7, .text, true, [99]⟩]]).2.1 =
        groupRecords [] (framesFor p
          [⟨7, .text, false, [97, 98]⟩, ⟨9, .text, true, [88]⟩,
           ⟨7, .text, true, [99]⟩])) ∧
    (∀ (l : List ℕ) (bl : BufferLists), BLInv bl →
      BLInv (process_pipe_input l bl).1 ∧
      SlotUniq (process_pipe_input l bl).1) ∧
    SlotUniq (feedReads
      [encodeFrames [⟨7, .text, false, [97, 98]⟩, ⟨9, .text, true, [88]⟩,
        ⟨7, .text, true, [99]⟩]]).1 :=
  c2_producer_isolation
    [⟨7, .text, false, [97, 98]⟩, ⟨9, .text, true, [88]⟩,
     ⟨7, .text, true, [99]⟩]
    [encodeFrames [⟨7, .text, false, [97, 98]⟩, ⟨9, .text, true, [88]⟩,
      ⟨7, .text, true, [99]⟩]]
    (by decide) (by simp)

/-! ## C8: shutdown ordering -/

set_option maxRecDepth 4096 in
/-- C8: a loop iteration entered with `pipe_eof_seen` still false reaches
`proc_exit` exactly when the wait reported the pipe readable and the read
returned zero bytes (EOF); in that same iteration the residual read buffer
and every still-active reassembly slot are flushed — all flush records go to
the stderr (TEXT) destination, the residual buffer is among them when
nonempty, and afterwards the buffer is empty and no slot is active.  No
other event (data, read error, timeout) leaves the loop. -/
theorem c8_exit_only_on_eof (st : LoopState) (ev : LoopEvent)
    (h : st.pipe_eof_seen = false) :
    ((sysLoggerIter st ev).2.2 = true ↔ ev = LoopEvent.readEOF) ∧
    (ev = LoopEvent.readEOF →
      (sysLoggerIter st ev).1.buffer = [] ∧
      (∀ i : Fin 256, ∀ s ∈ (sysLoggerIter st ev).1.sys i, s.pid = 0) ∧
      (∀ r ∈ (sysLoggerIter st ev).2.1, r.dest = LOG_DESTINATION_STDERR) ∧
      (st.buffer ≠ [] →
        (⟨none, LOG_DESTINATION_STDERR, st.buffer⟩ : LogRec) ∈
          (sysLoggerIter st ev).2.1)) := by
  constructor
  · cases ev <;> simp [sysLoggerIter, h]
  · rintro rfl
    refine ⟨rfl, ?_, ?_, ?_⟩
    · intro i s hs
      have hs' : s ∈ (flushState st.sys) i := hs
      unfold flushState at hs'
      rw [List.mem_map] at hs'
      obtain ⟨s₀, _, he⟩ := hs'
      by_cases h0 : s₀.pid ≠ 0
      · rw [← he]
        simp [h0]
      · rw [← he]
        simp only [h0, if_neg, not_false_iff]
        simpa using h0
    · intro r hr
      have hr' : r ∈ flushEmissions st.sys ++
          (if st.buffer ≠ [] then
            [⟨none, LOG_DESTINATION_STDERR, st.buffer⟩] else []) := hr
      rcases List.mem_append.mp hr' with hm | hm
      · unfold flushEmissions at hm
        rw [List.mem_flatten] at hm
        obtain ⟨lr, hlr, hrin⟩ := hm
        rw [List.mem_map] at hlr
        obtain ⟨i, _, he⟩ := hlr
        rw [← he, List.mem_filterMap] at hrin
        obtain ⟨s, _, hsr⟩ := hrin
        by_cases h0 : s.pid ≠ 0
        · rw [if_pos h0] at hsr
          have : (⟨some s.pid, LOG_DESTINATION_STDERR, s.data⟩ : LogRec) = r :=
            Option.some.inj hsr
          rw [← this]
        · rw [if_neg h0] at hsr
          exact absurd hsr (by simp)
      · by_cases hb : st.buffer ≠ []
        · rw [if_pos hb] at hm
          have : r = ⟨none, LOG_DESTINATION_STDERR, st.buffer⟩ := by
            simpa using hm
          rw [this]
        · rw [if_neg hb] at hm
          exact absurd hm (by simp)
    · intro hb
      show (⟨none, LOG_DESTINATION_STDERR, st.buffer⟩ : LogRec) ∈
        flushEmissions st.sys ++
          (if st.buffer ≠ [] then
            [⟨none, LOG_DESTINATION_STDERR, st.buffer⟩] else [])
      rw [if_pos hb]
      exact List.mem_append.mpr (Or.inr (by simp))

/-- Witness for C8 at a concrete state: residual buffer `[1, 2]`, one
active slot for pid 5, EOF observed. -/
theorem c8_exit_only_on_eof_witness :
    ((sysLoggerIter ⟨false, [1, 2],
        Function.update initBufferLists (bucketOf 5) [⟨5, [7]⟩]⟩
        LoopEvent.readEOF).2.2 = true ↔
      LoopEvent.readEOF = LoopEvent.readEOF) ∧
    (LoopEvent.readEOF = LoopEvent.readEOF →
      (sysLoggerIter ⟨false, [1, 2],
          Function.update initBufferLists (bucketOf 5) [⟨5, [7]⟩]⟩
          LoopEvent.readEOF).1.buffer = [] ∧
      (∀ i : Fin 256, ∀ s ∈ (sysLoggerIter ⟨false, [1, 2],
          Function.update initBufferLists (bucketOf 5) [⟨5, [7]⟩]⟩
          LoopEvent.readEOF).1.sys i, s.pid = 0) ∧
      (∀ r ∈ (sysLoggerIter ⟨false, [1, 2],
          Function.update initBufferLists (bucketOf 5) [⟨5, [7]⟩]⟩
          LoopEvent.readEOF).2.1, r.dest = LOG_DESTINATION_STDERR) ∧
      (([1, 2] : List ℕ) ≠ [] →
        (⟨none, LOG_DESTINATION_STDERR, [1, 2]⟩ : LogRec) ∈
          (sysLoggerIter ⟨false, [1, 2],
            Function.update initBufferLists (bucketOf 5) [⟨5, [7]⟩]⟩
            LoopEvent.readEOF).2.1)) :=
  c8_exit_only_on_eof
    ⟨false, [1, 2], Function.update initBufferLists (bucketOf 5) [⟨5, [7]⟩]⟩
    LoopEvent.readEOF rfl

end Syslogger
